import Mathlib

/-!
Verification development for the `log_analyzer` repository
(`src/log_analyzer.py`): a shallow embedding of its core functions
(`parse_line`, `parse_file`, `median`, `calc_stats`, the report selection
of `make_report`, and `get_last_log_file`) together with theorems about
them.

Modelling conventions:
* Python strings are embedded as `List Char`; log lines and filenames are
  char lists.
* Python numbers flowing through the statistics (floats) are embedded as
  `ℚ`.  The program is Python 2 code (binary-mode lines are fed to
  str-compiled patterns, which only works there), so `/` floors on two
  ints — embedded as natural-number division where that occurs
  (`count_perc`) — and is exact float division whenever a `float()`
  value is involved, embedded as rational division.
* Python exceptions are explicit: functions that can raise return a
  constructor carrying the exception kind.
* The regular expressions of the source are fixed concrete patterns
  (`\s+`, `"([^"]+)"`, `\[([^\]]+)\]`, `([^\s]+)`, and the log-file name
  pattern); each is embedded directly as a matching function on char
  lists, anchored at the cursor exactly as `re.match(line, pos)` is.
-/

/-- Whitespace test matching the `\s` character class used by the
source's compiled patterns (space, tab, newline, carriage return,
vertical tab, form feed). -/
def isSpace (c : Char) : Bool :=
  c == ' ' || c == '\t' || c == '\n' || c == '\r' || c == '\x0b' || c == '\x0c'

/-- Auxiliary accumulator pass for `pySplitWs`. -/
def splitWsAux : List Char → List Char → List (List Char)
  | [], acc => if acc.isEmpty then [] else [acc.reverse]
  | c :: cs, acc =>
    if isSpace c then
      if acc.isEmpty then splitWsAux cs [] else acc.reverse :: splitWsAux cs []
    else
      splitWsAux cs (c :: acc)

/-- Embedding of Python's `str.split()` with no arguments: split on runs
of whitespace, discarding empty pieces. -/
def pySplitWs (l : List Char) : List (List Char) :=
  splitWsAux l []

/-- Characters removed by `str.strip('"[]')` in the source. -/
def isStripChar (c : Char) : Bool :=
  c == '"' || c == '[' || c == ']'

/-- Embedding of `field_name.strip('"[]')`: remove leading and trailing
`"`/`[`/`]` characters. -/
def pyStrip (t : List Char) : List Char :=
  ((t.dropWhile isStripChar).reverse.dropWhile isStripChar).reverse

/-- Test for `field_name.startswith('"') and field_name.endswith('"')`. -/
def isQuotedTok (t : List Char) : Bool :=
  t.head? == some '"' && t.getLast? == some '"'

/-- Test for `field_name.startswith('[') and field_name.endswith(']')`. -/
def isSquareTok (t : List Char) : Bool :=
  t.head? == some '[' && t.getLast? == some ']'

/-- Embedding of `QUOTED_PATTERN.match(line, end)` for the pattern
`"([^"]+)"`, anchored at the cursor: returns `(group0, rest)` on a
match, where `group0` is the whole matched text (quotes included) and
`rest` is the line after the match. -/
def matchQuoted (rem : List Char) : Option (List Char × List Char) :=
  match rem with
  | [] => none
  | c :: tail =>
    if c = '"' then
      if (tail.takeWhile (fun x => x != '"')).isEmpty then none
      else
        -- a nonempty `dropWhile (· != '"')` result necessarily starts with `"`
        match tail.dropWhile (fun x => x != '"') with
        | [] => none
        | _ :: r3 => some ('"' :: (tail.takeWhile (fun x => x != '"') ++ ['"']), r3)
    else none

/-- Embedding of `SQUARE_PATTERN.match(line, end)` for the pattern
`\[([^\]]+)\]`, anchored at the cursor, returning `(group0, rest)` with
brackets included in `group0`. -/
def matchSquare (rem : List Char) : Option (List Char × List Char) :=
  match rem with
  | [] => none
  | c :: tail =>
    if c = '[' then
      if (tail.takeWhile (fun x => x != ']')).isEmpty then none
      else
        match tail.dropWhile (fun x => x != ']') with
        | [] => none
        | _ :: r3 => some ('[' :: (tail.takeWhile (fun x => x != ']') ++ [']']), r3)
    else none

/-- Embedding of `STRING_PATTERN.match(line, end)` for the pattern
`([^\s]+)`, anchored at the cursor: a maximal nonempty run of
non-whitespace characters. -/
def matchString (rem : List Char) : Option (List Char × List Char) :=
  let g := rem.takeWhile (fun c => !(isSpace c))
  if g.isEmpty then none else some (g, rem.dropWhile (fun c => !(isSpace c)))

/-- Embedding of `SEPARATOR_PATTERN.match(line, end)` for the pattern
`\s+`, anchored at the cursor: on success only the position after the
separator run matters, so just the rest of the line is returned. -/
def matchSep (rem : List Char) : Option (List Char) :=
  if (rem.takeWhile isSpace).isEmpty then none
  else some (rem.dropWhile isSpace)

/-- Value of a natural number written by the given decimal digits. -/
def digitsVal (ds : List Char) : Nat :=
  ds.foldl (fun n c => n * 10 + (c.toNat - '0'.toNat)) 0

/-- Embedding of Python's `float()` conversion on the decimal fragment of
its input grammar: optional sign, then integer digits, an optional
decimal point and fraction digits, with at least one digit overall and
nothing left over.  Inputs outside this fragment (exponents, `inf`,
`nan`, underscores, surrounding whitespace) are not produced by the log
lines this program handles; everything else fails, as `float()` raises
`ValueError`. -/
def pyFloat? (cs : List Char) : Option ℚ :=
  let signed : ℚ × List Char :=
    match cs with
    | '-' :: r => (-1, r)
    | '+' :: r => (1, r)
    | r => (1, r)
  let ip := signed.2.takeWhile Char.isDigit
  let r2 := signed.2.dropWhile Char.isDigit
  match r2 with
  | [] => if ip.isEmpty then none else some (signed.1 * digitsVal ip)
  | '.' :: r3 =>
    let fp := r3.takeWhile Char.isDigit
    let r4 := r3.dropWhile Char.isDigit
    if r4.isEmpty && !(ip.isEmpty && fp.isEmpty) then
      some (signed.1 * ((digitsVal ip : ℚ) + (digitsVal fp : ℚ) / (10 : ℚ) ^ fp.length))
    else none
  | _ => none

/-- Value stored in a parsed record: every field keeps its raw matched
text except `request_time`, which the source converts with `float()`. -/
inductive FieldVal
  | str (s : List Char)
  | num (q : ℚ)
deriving DecidableEq

/-- Embedding of the Python dict built by `parse_line`: an
insertion-ordered association list. -/
abbrev PyDict := List (List Char × FieldVal)

/-- Embedding of `parsed[key] = value` on a dict: replace the value of an
existing key in place, otherwise append the new pair. -/
def dictInsert : PyDict → List Char → FieldVal → PyDict
  | [], k, v => [(k, v)]
  | (k0, v0) :: rest, k, v =>
    if k0 = k then (k0, v) :: rest else (k0, v0) :: dictInsert rest k v

/-- Embedding of dict lookup, `none` when the key is absent. -/
def dictFind : PyDict → List Char → Option FieldVal
  | [], _ => none
  | (k0, v0) :: rest, k => if k0 = k then some v0 else dictFind rest k

/-- Python exceptions that can escape `parse_line`: `ValueError` from the
uncaught `float()` conversion, and `AttributeError` from calling
`.end()` on a failed separator match outside the `try` block. -/
inductive PyExn
  | valueError
  | attributeError
deriving DecidableEq

/-- Result of `parse_line`: a returned record, the plain failure outcome
(`return None`), or an uncaught exception propagating out. -/
inductive ParseOutcome
  | ok (r : PyDict)
  | failure
  | raised (e : PyExn)
deriving DecidableEq

/-- Field-name constant `'request'`. -/
def rqKey : List Char := "request".toList

/-- Key constant `'url'`. -/
def urlKey : List Char := "url".toList

/-- Field-name constant `'request_time'`. -/
def rtKey : List Char := "request_time".toList

/-- Matcher selection for one format token: quoted tokens use
`QUOTED_PATTERN`, bracketed ones `SQUARE_PATTERN`, anything else
`STRING_PATTERN`, all anchored at the cursor. -/
def fieldMatcher (t : List Char) (rem : List Char) : Option (List Char × List Char) :=
  if isQuotedTok t then matchQuoted rem
  else if isSquareTok t then matchSquare rem
  else matchString rem

/-- Body of the `try` block for one field, given the stripped field name,
the matched text `g` and the dict built so far: the `request` handling
(a value with fewer than two whitespace tokens returns `None`, otherwise
the second token is stored under `url`), then the value assignment,
converting with `float()` when the field is `request_time` (a failed
conversion raises `ValueError`, which the `except AttributeError` clause
does not catch).  The left summand carries an early outcome, the right
one the updated dict.  `urlStepFn` is the `request` handling: splitting
the matched text on whitespace, `None` (hence failure) when fewer than
two tokens result, otherwise storing the second token under `url`. -/
def urlStepFn (name g : List Char) (p : PyDict) : Option PyDict :=
  if name = rqKey then
    match pySplitWs g with
    | _ :: u :: _ => some (dictInsert p urlKey (.str u))
    | _ => none
  else some p

/-- Value computed for the field: `float()` conversion for
`request_time` (failing exactly when `float()` raises `ValueError`),
the raw matched text otherwise. -/
def valStepFn (name g : List Char) : Option FieldVal :=
  if name = rtKey then (pyFloat? g).map FieldVal.num else some (.str g)

def processField (name g : List Char) (parsed : PyDict) : ParseOutcome ⊕ PyDict :=
  match urlStepFn name g parsed with
  | none => .inl .failure
  | some p1 =>
    match valStepFn name g with
    | none => .inl (.raised .valueError)
    | some v => .inr (dictInsert p1 name v)

/-- Embedding of the field loop of `parse_line`.  Arguments: the
remaining format tokens, the last token of the whole format
(`format.split()[-1]`, compared against the *stripped* current name to
decide whether a separator must follow), the line from the current
cursor, and the dict built so far.  A failed field match leads to
`m.group()` raising `AttributeError` inside the `try` block, hence the
plain `failure`; the `try` body itself is `processField`; a missing
separator makes `msep.end()` raise `AttributeError` outside the `try`.
When the separator check is skipped (stripped name equal to the last
raw token) the cursor variable `end` keeps its old value, so the
recursion continues on the same remainder. -/
def parseFields : List (List Char) → List Char → List Char → PyDict → ParseOutcome
  | [], _, _, parsed => .ok parsed
  | t :: ts, lt, rem, parsed =>
    match fieldMatcher t rem with
    | none => .failure
    | some (g, rest) =>
      match processField (pyStrip t) g parsed with
      | .inl out => out
      | .inr p2 =>
        if pyStrip t = lt then parseFields ts lt rem p2
        else
          match matchSep rest with
          | none => .raised .attributeError
          | some rem2 => parseFields ts lt rem2 p2

/-- Embedding of `parse_line(line, format)`.  With an empty format the
loop body never runs and the empty dict is returned
(`format.split()[-1]` is only evaluated inside the loop). -/
def parse_line (line : List Char) (format : List Char) : ParseOutcome :=
  match (pySplitWs format).getLast? with
  | none => .ok []
  | some lt => parseFields (pySplitWs format) lt line []

/-- The module-level `LOG_FORMAT` template string of the source. -/
def LOG_FORMAT : List Char :=
  ("remote_addr  remote_user http_x_real_ip [time_local] \"request\" status body_bytes_sent "
    ++ "\"http_referer\" \"http_user_agent\" \"http_x_forwarded_for\" \"http_X_REQUEST_ID\" \"http_X_RB_USER\" "
    ++ "request_time").toList

/-- Clamped slice bound, as Python normalizes one slice index against a
list of the given length (negative indices count from the end and clamp
at zero; non-negative ones clamp at the length). -/
def pySliceBound (len : Nat) (i : Int) : Nat :=
  if i < 0 then ((len : Int) + i).toNat else min i.toNat len

/-- Embedding of the Python slice `xs[a:b]` with possibly negative
bounds. -/
def pySlice (xs : List ℚ) (a b : Int) : List ℚ :=
  (xs.take (pySliceBound xs.length b)).drop (pySliceBound xs.length a)

/-- Stable insertion into an ascending sorted list of rationals (a new
element goes after existing elements that are `≤` it). -/
def insAsc (x : ℚ) : List ℚ → List ℚ
  | [] => [x]
  | y :: ys => if y ≤ x then y :: insAsc x ys else x :: y :: ys

/-- Embedding of Python's `sorted()` on a list of numbers: the ascending
reordering.  On values of a linear order the sorted permutation is
unique, so this insertion sort computes exactly what `sorted()`
returns. -/
def pySorted (xs : List ℚ) : List ℚ :=
  xs.foldl (fun acc x => insAsc x acc) []

/-- Embedding of `median(numbers)` from the source: `divmod(len, 2)`
gives quotient and remainder; an odd length indexes the sorted list at
the quotient, while an even length sums the slice
`numbers[quotient - 1 : quotient + 1]` of the *unsorted* input and
halves it.  The odd-branch index is always in bounds (`getD`'s default
is never used there).  On the empty list the slice is `numbers[-1:1]`,
which is empty. -/
def median (numbers : List ℚ) : ℚ :=
  let quotient := numbers.length / 2
  if numbers.length % 2 = 1 then (pySorted numbers).getD quotient 0
  else (pySlice numbers ((quotient : Int) - 1) ((quotient : Int) + 1)).sum / 2

/-- Modelled from the spec: the standard median — for an odd-length list
the middle value of the sorted list, and for an even-length list the
arithmetic mean of the two values adjacent to the midpoint of the
*sorted* list.  Stated here to compare with the source's `median`. -/
def medianSpec (numbers : List ℚ) : ℚ :=
  let s := pySorted numbers
  let quotient := numbers.length / 2
  if numbers.length % 2 = 1 then s.getD quotient 0
  else (s.getD (quotient - 1) 0 + s.getD quotient 0) / 2

/-- Terminal state of the generator returned by `parse_file` once the
consumer has exhausted it: normal completion, the `RuntimeError` for an
exceeded errors budget, or an exception propagated out of
`parse_line` mid-iteration. -/
inductive FileResult
  | done
  | budget
  | raised (e : PyExn)
deriving DecidableEq

/-- Embedding of the reading loop of `parse_file`: walks the lines,
counting every line read and every line whose parse outcome is falsy
(`None`, or an empty dict from an empty format), collecting the yielded
records; an exception from `parse_line` ends the iteration at that
line.  Returns the yielded records, the error count, the line count and
the propagated exception, if any. -/
def parseFileGo (format : List Char) :
    List (List Char) → List PyDict → Nat → Nat → List PyDict × Nat × Nat × Option PyExn
  | [], acc, errs, cnt => (acc.reverse, errs, cnt, none)
  | l :: ls, acc, errs, cnt =>
    match parse_line l format with
    | .raised e => (acc.reverse, errs, cnt + 1, some e)
    | .failure => parseFileGo format ls acc (errs + 1) (cnt + 1)
    | .ok r =>
      if r.isEmpty then parseFileGo format ls acc (errs + 1) (cnt + 1)
      else parseFileGo format ls (r :: acc) errs (cnt + 1)

/-- Embedding of `parse_file(path, format, errors_limit)` applied to the
sequence of decoded lines of the file: the fully consumed generator's
yielded records, paired with how the iteration ends.  After the source
is exhausted, `RuntimeError` is raised exactly when a limit was
configured, at least one line was read, and
`errors / float(records_count) > errors_limit`. -/
def parse_file (lines : List (List Char)) (format : List Char)
    (errors_limit : Option ℚ) : List PyDict × FileResult :=
  match parseFileGo format lines [] 0 0 with
  | (recs, _errs, _cnt, some e) =>
    -- the exception aborts iteration before the budget check is reached
    (recs, .raised e)
  | (recs, errs, cnt, none) =>
    match errors_limit with
    | some lim =>
      if 0 < cnt ∧ lim < (errs : ℚ) / (cnt : ℚ) then (recs, .budget)
      else (recs, .done)
    | none => (recs, .done)

/-- Accumulator entry of `calc_stats` for one URL: the running count and
the list of request times, appended in stream order. -/
structure UrlAcc where
  url : List Char
  count : Nat
  times : List ℚ
deriving DecidableEq

/-- Embedding of the per-record dict update in `calc_stats`: the first
(unique) entry for the url gets its count bumped and the time appended;
an unseen url is appended with count 1. -/
def insertRecord : List UrlAcc → List Char → ℚ → List UrlAcc
  | [], u, t => [⟨u, 1, [t]⟩]
  | a :: rest, u, t =>
    if a.url = u then { a with count := a.count + 1, times := a.times ++ [t] } :: rest
    else a :: insertRecord rest u t

/-- Finalized per-URL statistics row, as `calc_stats` leaves it after
deleting the raw times list. -/
structure URLStat where
  url : List Char
  count : Nat
  count_perc : ℚ
  time_sum : ℚ
  time_perc : ℚ
  time_avg : ℚ
  time_max : ℚ
  time_med : ℚ
deriving DecidableEq

/-- Embedding of Python's `max()` on the (always nonempty here) times
list; the default of the empty case is never reached because every
accumulator entry is created with one time. -/
def pyMax : List ℚ → ℚ
  | [] => 0
  | x :: xs => xs.foldl max x

/-- Finalization step of `calc_stats` for one URL entry: the statistics
fields written into `url_record` after the full stream is consumed.
The source runs under Python 2 (it feeds binary-mode lines to
str-compiled patterns, uses `errors / float(records_count)` and
`json.load(..., encoding=...)`), so `count * 100 / requests_count`,
an int-by-int division, floors: it is embedded as natural-number
division.  The remaining divisions have float operands (`request_time`
values come from `float()`), so they are exact float divisions,
embedded as rational division. -/
def finalizeStat (requests_count : Nat) (requests_time_sum : ℚ) (a : UrlAcc) : URLStat :=
  { url := a.url
    count := a.count
    count_perc := ((a.count * 100 / requests_count : ℕ) : ℚ)
    time_sum := a.times.sum
    time_perc := a.times.sum * 100 / requests_time_sum
    time_avg := a.times.sum / (a.count : ℚ)
    time_max := pyMax a.times
    time_med := median a.times }

/-- Embedding of `calc_stats(log_records)` on the stream of records,
each reduced to the two dict entries the function reads: the `url`
string and the `request_time` number.  One pass accumulates
`requests_count`, `requests_time_sum` and the per-URL entries; the
finalization pass computes the percentage, sum, average, max and median
fields.  With no records the url map is empty and the finalization loop
body never runs. -/
def calc_stats (records : List (List Char × ℚ)) : List URLStat :=
  let st := records.foldl
    (fun (st : Nat × ℚ × List UrlAcc) r =>
      (st.1 + 1, st.2.1 + r.2, insertRecord st.2.2 r.1 r.2))
    (0, 0, [])
  st.2.2.map (finalizeStat st.1 st.2.1)

/-- Stable insertion into a list sorted by `time_sum` descending: the
new element goes after existing elements whose `time_sum` is at least
its own, so earlier stream entries stay first among ties, exactly as
Python's stable `sorted(..., reverse=True)` behaves. -/
def insDesc (x : URLStat) : List URLStat → List URLStat
  | [] => [x]
  | y :: ys => if x.time_sum ≤ y.time_sum then y :: insDesc x ys else x :: y :: ys

/-- Embedding of the report selection in `make_report`:
`sorted(stats, key=lambda rec: rec['time_sum'], reverse=True)[:report_size]`.
A stable sort by a key is a unique reordering, so this stable insertion
sort computes exactly what `sorted` returns; the truncation is the
slice `[:report_size]`. -/
def select_top (stats : List URLStat) (n : Nat) : List URLStat :=
  (stats.foldl (fun acc x => insDesc x acc) []).take n

/-- Descriptor returned by `get_last_log_file`: the namedtuple
`LogfileInfo(filename, date)`, with the date embedded as the number
`yyyymmdd` (for valid calendar dates this numeric order coincides with
the order of `datetime.date`). -/
structure LogfileInfo where
  filename : List Char
  date : Nat
deriving DecidableEq

/-- Leap-year test of the Gregorian calendar, as `datetime` uses. -/
def isLeap (y : Nat) : Bool :=
  y % 4 = 0 && (y % 100 ≠ 0 || y % 400 = 0)

/-- Number of days of a month, `0` for an invalid month number. -/
def daysInMonth (y m : Nat) : Nat :=
  if m = 1 ∨ m = 3 ∨ m = 5 ∨ m = 7 ∨ m = 8 ∨ m = 10 ∨ m = 12 then 31
  else if m = 4 ∨ m = 6 ∨ m = 9 ∨ m = 11 then 30
  else if m = 2 then (if isLeap y then 29 else 28)
  else 0

/-- Validity of a `YYYYMMDD` triple for `datetime.strptime(_, '%Y%m%d')`:
the year must be in `datetime`'s supported range and the day must exist
in the month. -/
def validDate (y m d : Nat) : Bool :=
  1 ≤ y && y ≤ 9999 && 1 ≤ m && m ≤ 12 && 1 ≤ d && d ≤ daysInMonth y m

/-- Literal filename body required by the pattern
`^nginx-access-ui\.log-(?P<date>\d{8})(\.gz)?$`. -/
def logNameHead : List Char := "nginx-access-ui.log-".toList

/-- Test that one list is a leading segment of another. -/
def listStartsWith : List Char → List Char → Bool
  | [], _ => true
  | _ :: _, [] => false
  | c :: cs, d :: ds => c == d && listStartsWith cs ds

/-- Embedding of one loop iteration's filename analysis in
`get_last_log_file`: match the filename against
`^nginx-access-ui\.log-(?P<date>\d{8})(\.gz)?$` (the optional `.gz` and
the end anchor, which also accepts a single trailing newline), then
parse the 8-digit group with `strptime('%Y%m%d')`; `none` covers both
the `AttributeError` of a failed match and the `ValueError` of an
invalid calendar date, each of which makes the loop `continue`. -/
def parseLogFileDate (fn : List Char) : Option Nat :=
  if listStartsWith logNameHead fn then
    let r := fn.drop logNameHead.length
    let ds := r.take 8
    let rest := r.drop 8
    if ds.length = 8 && ds.all Char.isDigit
        && (rest = [] || rest = ['\n'] || rest = ".gz".toList || rest = ".gz\n".toList : Bool) then
      let y := digitsVal (ds.take 4)
      let m := digitsVal ((ds.drop 4).take 2)
      let d := digitsVal (ds.drop 6)
      if validDate y m d then some (y * 10000 + m * 100 + d) else none
    else none
  else none

/-- Embedding of `get_last_log_file(log_dir)`.  The input is `none` when
the path does not exist or is not a directory, and otherwise the
directory listing in encounter order; the fold keeps the first entry
whose date all later parsed dates fail to strictly exceed, mirroring
`if not last_log or file_date > last_log.date`. -/
def get_last_log_file (dir : Option (List (List Char))) : Option LogfileInfo :=
  match dir with
  | none => none
  | some files =>
    files.foldl
      (fun last fn =>
        match parseLogFileDate fn with
        | none => last
        | some d =>
          match last with
          | none => some ⟨fn, d⟩
          | some lg => if d > lg.date then some ⟨fn, d⟩ else last)
      none

/-- C1: the claim says `median` returns the standard median for every
list.  The code sorts only in the odd branch; on the even-length,
unsorted list `[1.5, 0.5, 2.5, 3.5]` it averages the slice
`numbers[1:3]` of the unsorted input and returns `1.5`, while the
standard median (modelled by `medianSpec`, averaging around the midpoint
of the sorted list) is `2`. -/
theorem median_even_unsorted_bug :
    median [3/2, 1/2, 5/2, 7/2] = 3/2 ∧
    medianSpec [3/2, 1/2, 5/2, 7/2] = 2 ∧
    median [3/2, 1/2, 5/2, 7/2] ≠ medianSpec [3/2, 1/2, 5/2, 7/2] := by
  have h1 : median [3/2, 1/2, 5/2, 7/2] = 3/2 := by with_unfolding_all rfl
  have h2 : medianSpec [3/2, 1/2, 5/2, 7/2] = 2 := by with_unfolding_all rfl
  refine ⟨h1, h2, ?_⟩
  rw [h1, h2]
  norm_num

/-- C2: the claim says `parse_line` never raises.  The code raises
`ValueError` when the matched `request_time` text does not convert to a
float (the `try` block only catches `AttributeError`), and raises
`AttributeError` when the separator between two successive fields is
missing (`msep.end()` is evaluated outside the `try` block): both are
uncaught exceptions, not the plain failure outcome. -/
theorem parse_line_uncaught_exceptions :
    parse_line "abc".toList "request_time".toList = .raised .valueError ∧
    parse_line "x".toList "a b".toList = .raised .attributeError :=
  ⟨rfl, rfl⟩

/-- C8: aggregating an empty record stream yields the empty statistics
list: the url accumulator map stays empty, so the finalization loop with
its `count_perc`/`time_perc` divisions never runs and no
division-by-zero fault can occur. -/
theorem calc_stats_empty : calc_stats [] = [] := rfl

/-- C10: `median` of the empty list returns `0` instead of signalling an
error: the even-length branch sums the empty slice `numbers[-1:1]` and
halves it. -/
theorem median_empty : median [] = 0 := by with_unfolding_all rfl

theorem insDesc_perm (x : URLStat) : ∀ l : List URLStat, (insDesc x l).Perm (x :: l)
  | [] => .refl _
  | y :: ys => by
    unfold insDesc
    by_cases h : x.time_sum ≤ y.time_sum
    · rw [if_pos h]
      exact ((insDesc_perm x ys).cons y).trans (List.Perm.swap x y ys)
    · rw [if_neg h]

theorem insDesc_pairwise (x : URLStat) :
    ∀ l : List URLStat, List.Pairwise (fun a b => b.time_sum ≤ a.time_sum) l →
      List.Pairwise (fun a b => b.time_sum ≤ a.time_sum) (insDesc x l)
  | [], _ => List.pairwise_singleton _ _
  | y :: ys, h => by
    unfold insDesc
    rcases List.pairwise_cons.mp h with ⟨hy, hys⟩
    by_cases hxy : x.time_sum ≤ y.time_sum
    · rw [if_pos hxy]
      refine List.pairwise_cons.mpr ⟨?_, insDesc_pairwise x ys hys⟩
      intro z hz
      rcases List.mem_cons.mp ((insDesc_perm x ys).mem_iff.mp hz) with hz | hz
      · exact hz ▸ hxy
      · exact hy z hz
    · rw [if_neg hxy]
      refine List.pairwise_cons.mpr ⟨?_, h⟩
      intro z hz
      rcases List.mem_cons.mp hz with hz | hz
      · exact hz ▸ le_of_not_le hxy
      · exact le_trans (hy z hz) (le_of_not_le hxy)

theorem sortDesc_perm : ∀ (l acc : List URLStat),
    (l.foldl (fun acc x => insDesc x acc) acc).Perm (l ++ acc)
  | [], acc => .refl _
  | x :: xs, acc => by
    have h1 := sortDesc_perm xs (insDesc x acc)
    have h2 : (xs ++ insDesc x acc).Perm (xs ++ x :: acc) :=
      List.Perm.append_left xs (insDesc_perm x acc)
    exact (h1.trans (h2.trans List.perm_middle)).symm.symm

theorem sortDesc_pairwise : ∀ (l acc : List URLStat),
    List.Pairwise (fun a b => b.time_sum ≤ a.time_sum) acc →
    List.Pairwise (fun a b => b.time_sum ≤ a.time_sum) (l.foldl (fun acc x => insDesc x acc) acc)
  | [], _, h => h
  | x :: xs, acc, h => sortDesc_pairwise xs (insDesc x acc) (insDesc_pairwise x acc h)

/-- C6: for every statistics list and every `n`, the report selection of
`make_report` returns `min n (length stats)` entries, pairwise sorted by
`time_sum` descending; when `n` covers the whole list the result is a
permutation of it (all entries, in sorted order). -/
theorem select_top_spec (stats : List URLStat) (n : Nat) :
    (select_top stats n).length = min n stats.length ∧
    List.Pairwise (fun a b => b.time_sum ≤ a.time_sum) (select_top stats n) ∧
    (stats.length ≤ n → (select_top stats n).Perm stats) := by
  have hperm : (stats.foldl (fun acc x => insDesc x acc) []).Perm stats := by
    simpa using sortDesc_perm stats []
  have hlen : (stats.foldl (fun acc x => insDesc x acc) []).length = stats.length :=
    hperm.length_eq
  refine ⟨?_, ?_, ?_⟩
  · rw [select_top, List.length_take, hlen]
  · exact List.Pairwise.sublist (List.take_sublist _ _) (sortDesc_pairwise stats [] (.nil))
  · intro h
    rw [select_top, List.take_of_length_le (hlen ▸ h)]
    exact hperm

/-- Concrete statistics rows used to instantiate the report-selector
theorem. -/
def demoStats : List URLStat :=
  [⟨"a".toList, 0, 0, 1, 0, 0, 0, 0⟩,
   ⟨"b".toList, 0, 0, 3, 0, 0, 0, 0⟩,
   ⟨"c".toList, 0, 0, 2, 0, 0, 0, 0⟩]

/-- Witness for the report-selector theorem at a concrete input. -/
theorem select_top_spec_witness :
    (select_top demoStats 3).length = min 3 demoStats.length ∧
    (select_top demoStats 3).Perm demoStats :=
  ⟨(select_top_spec demoStats 3).1,
   (select_top_spec demoStats 3).2.2 (by norm_num [demoStats])⟩

/-- Sum of the per-URL counts of an accumulator list. -/
def sumCounts (l : List UrlAcc) : Nat := (l.map (fun a => a.count)).sum

theorem sum_map_count_div (N : ℚ) :
    ∀ l : List UrlAcc,
      (l.map (fun a => (a.count : ℚ) * 100 / N)).sum = (sumCounts l : ℚ) * 100 / N
  | [] => by simp [sumCounts]
  | a :: rest => by
    rw [List.map_cons, List.sum_cons, sum_map_count_div N rest]
    simp only [sumCounts, List.map_cons, List.sum_cons]
    push_cast
    ring

/-- One loop iteration of `get_last_log_file`, abbreviated for the
lemmas below. -/
def lastLogStep (last : Option LogfileInfo) (fn : List Char) : Option LogfileInfo :=
  match parseLogFileDate fn with
  | none => last
  | some d =>
    match last with
    | none => some ⟨fn, d⟩
    | some lg => if d > lg.date then some ⟨fn, d⟩ else last

theorem get_last_log_file_eq_foldl (files : List (List Char)) :
    get_last_log_file (some files) = files.foldl lastLogStep none := rfl

theorem lastLogStep_keep :
    ∀ (files : List (List Char)) (lg : LogfileInfo),
      (∀ g ∈ files, ∀ e, parseLogFileDate g = some e → e ≤ lg.date) →
      files.foldl lastLogStep (some lg) = some lg
  | [], _, _ => rfl
  | g :: gs, lg, h => by
    rw [List.foldl_cons]
    have hrest : ∀ g' ∈ gs, ∀ e, parseLogFileDate g' = some e → e ≤ lg.date :=
      fun g' hg' e he => h g' (List.mem_cons_of_mem g hg') e he
    cases hpg : parseLogFileDate g with
    | none =>
      rw [show lastLogStep (some lg) g = some lg by rw [lastLogStep, hpg]]
      exact lastLogStep_keep gs lg hrest
    | some e =>
      have he : e ≤ lg.date := h g (List.mem_cons_self g gs) e hpg
      have hstep : lastLogStep (some lg) g = some lg := by
        rw [lastLogStep, hpg]
        simp only [gt_iff_lt, if_neg (not_lt.mpr he)]
      rw [hstep]
      exact lastLogStep_keep gs lg hrest

theorem lastLogStep_none :
    ∀ files : List (List Char), (∀ f ∈ files, parseLogFileDate f = none) →
      files.foldl lastLogStep none = none
  | [], _ => rfl
  | g :: gs, h => by
    rw [List.foldl_cons, show lastLogStep none g = none by
      rw [lastLogStep, h g (List.mem_cons_self g gs)]]
    exact lastLogStep_none gs (fun f hf => h f (List.mem_cons_of_mem g hf))

theorem lastLogStep_max :
    ∀ (files : List (List Char)) (acc : Option LogfileInfo) (f : List Char) (d : Nat),
      f ∈ files → parseLogFileDate f = some d →
      (∀ g ∈ files, ∀ e, parseLogFileDate g = some e → g ≠ f → e < d) →
      (∀ lg, acc = some lg → lg.date < d) →
      files.foldl lastLogStep acc = some ⟨f, d⟩
  | [], _, _, _, hf, _, _, _ => absurd hf (List.not_mem_nil _)
  | g :: gs, acc, f, d, hf, hpf, hlt, hacc => by
    rw [List.foldl_cons]
    by_cases hg : g = f
    · subst hg
      have hstep : lastLogStep acc g = some ⟨g, d⟩ := by
        rw [lastLogStep, hpf]
        cases acc with
        | none => rfl
        | some lg => simp only [gt_iff_lt, if_pos (hacc lg rfl)]
      rw [hstep]
      refine lastLogStep_keep gs ⟨g, d⟩ ?_
      intro g' hg' e he
      by_cases hgf : g' = g
      · subst hgf
        rw [hpf] at he
        exact le_of_eq (Option.some_injective _ he).symm
      · exact le_of_lt (hlt g' (List.mem_cons_of_mem g hg') e he hgf)
    · have hfgs : f ∈ gs := (List.mem_cons.mp hf).resolve_left (fun h => hg h.symm)
      have hltgs : ∀ g' ∈ gs, ∀ e, parseLogFileDate g' = some e → g' ≠ f → e < d :=
        fun g' hg' e he hne => hlt g' (List.mem_cons_of_mem g hg') e he hne
      cases hpg : parseLogFileDate g with
      | none =>
        rw [show lastLogStep acc g = acc by rw [lastLogStep, hpg]]
        exact lastLogStep_max gs acc f d hfgs hpf hltgs hacc
      | some e =>
        have hed : e < d := hlt g (List.mem_cons_self g gs) e hpg hg
        refine lastLogStep_max gs (lastLogStep acc g) f d hfgs hpf hltgs ?_
        intro lg hlg
        cases hc : acc with
        | none =>
          have hstep : lastLogStep acc g = some ⟨g, e⟩ := by
            rw [hc, lastLogStep, hpg]
          rw [hstep] at hlg
          cases hlg
          exact hed
        | some lg0 =>
          have hstep : lastLogStep acc g
              = if e > lg0.date then some ⟨g, e⟩ else some lg0 := by
            rw [hc, lastLogStep, hpg]
          rw [hstep] at hlg
          by_cases hgt : e > lg0.date
          · rw [if_pos hgt] at hlg
            cases hlg
            exact hed
          · rw [if_neg hgt] at hlg
            exact hacc lg (hc.trans hlg)

/-- C4: `get_last_log_file` returns `none` (not-found, never an
exception) on a nonexistent or non-directory path and on a directory
with zero entries matching the naming convention (non-matching names
and invalid `YYYYMMDD` digit groups are silently skipped); and whenever
one matching entry's date strictly exceeds every other matching entry's
date, that entry's descriptor is returned. -/
theorem get_last_log_file_spec :
    get_last_log_file none = none ∧
    (∀ files, (∀ f ∈ files, parseLogFileDate f = none) →
      get_last_log_file (some files) = none) ∧
    (∀ files (f : List Char) (d : Nat), f ∈ files → parseLogFileDate f = some d →
      (∀ g ∈ files, ∀ e, parseLogFileDate g = some e → g ≠ f → e < d) →
      get_last_log_file (some files) = some ⟨f, d⟩) := by
  refine ⟨rfl, ?_, ?_⟩
  · intro files h
    rw [get_last_log_file_eq_foldl]
    exact lastLogStep_none files h
  · intro files f d hf hpf hlt
    rw [get_last_log_file_eq_foldl]
    exact lastLogStep_max files none f d hf hpf hlt (fun lg h => absurd h (by simp))

/-- Concrete directory listing used to instantiate the selector
theorem. -/
def demoFiles : List (List Char) :=
  ["nginx-access-ui.log-20170628".toList, "junk.txt".toList,
   "nginx-access-ui.log-20170630".toList, "nginx-access-ui.log-20170629.gz".toList,
   "nginx-access-ui.log-20170699".toList]

/-- Witness for the selector theorem on a concrete directory listing. -/
theorem get_last_log_file_spec_witness :
    get_last_log_file (some demoFiles)
      = some ⟨"nginx-access-ui.log-20170630".toList, 20170630⟩ := by
  have h3 : ∀ g ∈ demoFiles, g = "nginx-access-ui.log-20170630".toList ∨
      (parseLogFileDate g).getD 0 < 20170630 := by decide
  refine get_last_log_file_spec.2.2 demoFiles _ 20170630 (by decide) (by decide) ?_
  intro g hg e he hne
  rcases h3 g hg with h | h
  · exact absurd h hne
  · rw [he] at h
    simpa using h

/-- Test whether a line is counted as an error by the reading loop of
`parse_file`: the parse outcome is falsy (`None`, or the empty dict an
empty format produces). -/
def errLine (format l : List Char) : Bool :=
  match parse_line l format with
  | .failure => true
  | .ok r => r.isEmpty
  | .raised _ => false

/-- Number of lines of the file counted as errors. -/
def errCount (format : List Char) (lines : List (List Char)) : Nat :=
  (lines.filter (errLine format)).length

theorem parseFileGo_cons_raised {l format : List Char} {e : PyExn}
    (ls : List (List Char)) (acc : List PyDict) (errs cnt : Nat)
    (h : parse_line l format = .raised e) :
    parseFileGo format (l :: ls) acc errs cnt = (acc.reverse, errs, cnt + 1, some e) := by
  rw [parseFileGo, h]

theorem parseFileGo_cons_failure {l format : List Char}
    (ls : List (List Char)) (acc : List PyDict) (errs cnt : Nat)
    (h : parse_line l format = .failure) :
    parseFileGo format (l :: ls) acc errs cnt
      = parseFileGo format ls acc (errs + 1) (cnt + 1) := by
  rw [parseFileGo, h]

theorem parseFileGo_cons_ok_empty {l format : List Char} {r : PyDict}
    (ls : List (List Char)) (acc : List PyDict) (errs cnt : Nat)
    (h : parse_line l format = .ok r) (hr : r.isEmpty = true) :
    parseFileGo format (l :: ls) acc errs cnt
      = parseFileGo format ls acc (errs + 1) (cnt + 1) := by
  rw [parseFileGo, h]
  show (if r.isEmpty = true then parseFileGo format ls acc (errs + 1) (cnt + 1)
    else parseFileGo format ls (r :: acc) errs (cnt + 1)) = _
  rw [if_pos hr]

theorem parseFileGo_cons_ok_full {l format : List Char} {r : PyDict}
    (ls : List (List Char)) (acc : List PyDict) (errs cnt : Nat)
    (h : parse_line l format = .ok r) (hr : ¬ r.isEmpty = true) :
    parseFileGo format (l :: ls) acc errs cnt
      = parseFileGo format ls (r :: acc) errs (cnt + 1) := by
  rw [parseFileGo, h]
  show (if r.isEmpty = true then parseFileGo format ls acc (errs + 1) (cnt + 1)
    else parseFileGo format ls (r :: acc) errs (cnt + 1)) = _
  rw [if_neg hr]

theorem parseFileGo_no_raise (format : List Char) :
    ∀ (lines : List (List Char)) (acc : List PyDict) (errs cnt : Nat),
      (∀ l ∈ lines, ∀ e, parse_line l format ≠ .raised e) →
      ∃ recs, parseFileGo format lines acc errs cnt
        = (recs, errs + errCount format lines, cnt + lines.length, none)
  | [], acc, errs, cnt, _ => ⟨acc.reverse, by simp [parseFileGo, errCount]⟩
  | l :: ls, acc, errs, cnt, h => by
    have hrest : ∀ l' ∈ ls, ∀ e, parse_line l' format ≠ .raised e :=
      fun l' hl' => h l' (List.mem_cons_of_mem l hl')
    cases ho : parse_line l format with
    | raised e => exact absurd ho (h l (List.mem_cons_self l ls) e)
    | failure =>
      obtain ⟨recs, hgo⟩ := parseFileGo_no_raise format ls acc (errs + 1) (cnt + 1) hrest
      refine ⟨recs, (parseFileGo_cons_failure ls acc errs cnt ho).trans (hgo.trans ?_)⟩
      have hec : errCount format (l :: ls) = errCount format ls + 1 := by
        simp [errCount, List.filter_cons, errLine, ho]
      have h1 : errs + 1 + errCount format ls = errs + errCount format (l :: ls) := by
        rw [hec]; omega
      have h2 : cnt + 1 + ls.length = cnt + (l :: ls).length := by
        rw [List.length_cons]; omega
      rw [h1, h2]
    | ok r =>
      by_cases hr : r.isEmpty = true
      · obtain ⟨recs, hgo⟩ := parseFileGo_no_raise format ls acc (errs + 1) (cnt + 1) hrest
        refine ⟨recs, (parseFileGo_cons_ok_empty ls acc errs cnt ho hr).trans (hgo.trans ?_)⟩
        have hec : errCount format (l :: ls) = errCount format ls + 1 := by
          simp [errCount, List.filter_cons, errLine, ho, hr]
        have h1 : errs + 1 + errCount format ls = errs + errCount format (l :: ls) := by
          rw [hec]; omega
        have h2 : cnt + 1 + ls.length = cnt + (l :: ls).length := by
          rw [List.length_cons]; omega
        rw [h1, h2]
      · obtain ⟨recs, hgo⟩ := parseFileGo_no_raise format ls (r :: acc) errs (cnt + 1) hrest
        refine ⟨recs, (parseFileGo_cons_ok_full ls acc errs cnt ho hr).trans (hgo.trans ?_)⟩
        have hec : errCount format (l :: ls) = errCount format ls := by
          simp [errCount, List.filter_cons, errLine, ho, hr]
        have h2 : cnt + 1 + ls.length = cnt + (l :: ls).length := by
          rw [List.length_cons]; omega
        rw [hec, h2]

theorem parseFileGo_exn_none (format : List Char) :
    ∀ (lines : List (List Char)) (acc : List PyDict) (errs cnt : Nat),
      (parseFileGo format lines acc errs cnt).2.2.2 = none ↔
        (∀ l ∈ lines, ∀ e, parse_line l format ≠ .raised e)
  | [], acc, errs, cnt => by simp [parseFileGo]
  | l :: ls, acc, errs, cnt => by
    cases ho : parse_line l format with
    | raised e =>
      rw [parseFileGo_cons_raised ls acc errs cnt ho]
      constructor
      · intro h
        exact absurd h (by simp)
      · intro h
        exact absurd ho (h l (List.mem_cons_self l ls) e)
    | failure =>
      rw [parseFileGo_cons_failure ls acc errs cnt ho,
        parseFileGo_exn_none format ls acc (errs + 1) (cnt + 1)]
      constructor
      · intro h l' hl'
        rcases List.mem_cons.mp hl' with rfl | hl'
        · intro e he
          rw [ho] at he
          exact ParseOutcome.noConfusion he
        · exact h l' hl'
      · intro h l' hl'
        exact h l' (List.mem_cons_of_mem l hl')
    | ok r =>
      by_cases hr : r.isEmpty = true
      · rw [parseFileGo_cons_ok_empty ls acc errs cnt ho hr,
          parseFileGo_exn_none format ls acc (errs + 1) (cnt + 1)]
        constructor
        · intro h l' hl'
          rcases List.mem_cons.mp hl' with rfl | hl'
          · intro e he
            rw [ho] at he
            exact ParseOutcome.noConfusion he
          · exact h l' hl'
        · intro h l' hl'
          exact h l' (List.mem_cons_of_mem l hl')
      · rw [parseFileGo_cons_ok_full ls acc errs cnt ho hr,
          parseFileGo_exn_none format ls (r :: acc) errs (cnt + 1)]
        constructor
        · intro h l' hl'
          rcases List.mem_cons.mp hl' with rfl | hl'
          · intro e he
            rw [ho] at he
            exact ParseOutcome.noConfusion he
          · exact h l' hl'
        · intro h l' hl'
          exact h l' (List.mem_cons_of_mem l hl')

/-- C3: the fully-consumed `parse_file` generator ends with the errors
budget `RuntimeError` exactly when no exception from `parse_line` cut
the iteration short, an error-ratio limit was configured, at least one
line was read, and the error ratio strictly exceeds the limit.  In
particular a ratio exactly equal to the limit, or an empty file, never
triggers the budget failure, and by construction the failure sits after
the whole input is consumed (every yielded record is in the first
component of the result). -/
theorem parse_file_budget_iff (lines : List (List Char)) (format : List Char)
    (lim : Option ℚ) :
    (parse_file lines format lim).2 = .budget ↔
      ((∀ l ∈ lines, ∀ e, parse_line l format ≠ .raised e) ∧
       ∃ q, lim = some q ∧ 0 < lines.length ∧
         q < (errCount format lines : ℚ) / (lines.length : ℚ)) := by
  by_cases hr : ∀ l ∈ lines, ∀ e, parse_line l format ≠ .raised e
  · obtain ⟨recs, hgo⟩ := parseFileGo_no_raise format lines [] 0 0 hr
    rw [Nat.zero_add, Nat.zero_add] at hgo
    unfold parse_file
    rw [hgo]
    cases lim with
    | none =>
      constructor
      · intro h
        exact absurd h (by simp)
      · rintro ⟨-, q, hq, -⟩
        exact Option.noConfusion hq
    | some q =>
      show (if 0 < lines.length ∧ q < (errCount format lines : ℚ) / (lines.length : ℚ)
        then (recs, FileResult.budget) else (recs, FileResult.done)).2 = _ ↔ _
      by_cases hc : 0 < lines.length ∧ q < (errCount format lines : ℚ) / (lines.length : ℚ)
      · rw [if_pos hc]
        constructor
        · intro _
          exact ⟨hr, q, rfl, hc.1, hc.2⟩
        · intro _
          rfl
      · rw [if_neg hc]
        constructor
        · intro h
          exact absurd h (by simp)
        · rintro ⟨-, q', hq', hpos, hlt⟩
          cases hq'
          exact absurd ⟨hpos, hlt⟩ hc
  · have hx : (parseFileGo format lines [] 0 0).2.2.2 ≠ none :=
      fun h => hr ((parseFileGo_exn_none format lines [] 0 0).mp h)
    rcases hgo : parseFileGo format lines [] 0 0 with ⟨recs, errs, cnt, exn⟩
    cases exn with
    | none => exact absurd (by rw [hgo]) hx
    | some e =>
      have hres : (parse_file lines format lim).2 = .raised e := by
        unfold parse_file
        rw [hgo]
      rw [hres]
      constructor
      · intro h
        exact absurd h (by simp)
      · rintro ⟨h, -⟩
        exact absurd h hr

/-- Witness for the errors-budget theorem: two lines against the
template `a`, one failing, with limit `1/4` strictly below the ratio
`1/2`. -/
theorem parse_file_budget_iff_witness :
    (parse_file [[], "a".toList] "a".toList (some (1/4))).2 = .budget := by
  refine (parse_file_budget_iff [[], "a".toList] "a".toList (some (1/4))).mpr
    ⟨?_, 1/4, rfl, by norm_num, ?_⟩
  · intro l hl e he
    rcases List.mem_cons.mp hl with rfl | hl
    · rw [show parse_line ([] : List Char) "a".toList = .failure from rfl] at he
      exact ParseOutcome.noConfusion he
    · rcases List.mem_cons.mp hl with rfl | hl
      · rw [show parse_line "a".toList "a".toList
            = .ok [("a".toList, FieldVal.str "a".toList)] from rfl] at he
        exact ParseOutcome.noConfusion he
      · exact absurd hl (List.not_mem_nil l)
  · rw [show errCount "a".toList [[], "a".toList] = 1 from rfl]
    norm_num

theorem dropWhile_nil_append (p : Char → Bool) :
    ∀ l t : List Char, l.dropWhile p = [] → (l ++ t).dropWhile p = t.dropWhile p
  | [], t, _ => rfl
  | c :: cs, t, h => by
    rw [List.dropWhile_cons] at h
    by_cases hp : p c
    · rw [if_pos hp] at h
      rw [List.cons_append, List.dropWhile_cons, if_pos hp]
      exact dropWhile_nil_append p cs t h
    · rw [if_neg hp] at h
      exact absurd h (by simp)

theorem takeWhile_of_dropWhile_nil (p : Char → Bool) (l : List Char)
    (h : l.dropWhile p = []) : l.takeWhile p = l := by
  have := List.takeWhile_append_dropWhile p l
  rw [h, List.append_nil] at this
  exact this

theorem takeWhile_nil_append (p : Char → Bool) :
    ∀ l t : List Char, l.dropWhile p = [] → (l ++ t).takeWhile p = l ++ t.takeWhile p
  | [], t, _ => rfl
  | c :: cs, t, h => by
    rw [List.dropWhile_cons] at h
    by_cases hp : p c
    · rw [if_pos hp] at h
      rw [List.cons_append, List.takeWhile_cons, if_pos hp,
        takeWhile_nil_append p cs t h, List.cons_append]
    · rw [if_neg hp] at h
      exact absurd h (by simp)

theorem takeWhile_append_pos (p : Char → Bool) :
    ∀ l t : List Char, l.dropWhile p ≠ [] → (l ++ t).takeWhile p = l.takeWhile p
  | [], _, h => absurd rfl h
  | c :: cs, t, h => by
    rw [List.dropWhile_cons] at h
    by_cases hp : p c
    · rw [if_pos hp] at h
      rw [List.cons_append, List.takeWhile_cons, if_pos hp,
        List.takeWhile_cons, if_pos hp, takeWhile_append_pos p cs t h]
    · rw [List.cons_append, List.takeWhile_cons, if_neg hp, List.takeWhile_cons, if_neg hp]

theorem dropWhile_append_pos (p : Char → Bool) :
    ∀ l t : List Char, l.dropWhile p ≠ [] → (l ++ t).dropWhile p = l.dropWhile p ++ t
  | [], _, h => absurd rfl h
  | c :: cs, t, h => by
    rw [List.dropWhile_cons] at h
    by_cases hp : p c
    · rw [if_pos hp] at h
      rw [List.cons_append, List.dropWhile_cons, if_pos hp,
        List.dropWhile_cons, if_pos hp, dropWhile_append_pos p cs t h]
    · rw [List.cons_append, List.dropWhile_cons, if_neg hp, List.dropWhile_cons, if_neg hp,
        List.cons_append]

theorem matchString_append (rem g rest j : List Char)
    (h : matchString rem = some (g, rest)) :
    matchString (rem ++ ' ' :: j) = some (g, rest ++ ' ' :: j) := by
  unfold matchString at h ⊢
  by_cases he : (rem.takeWhile (fun c => !(isSpace c))).isEmpty = true
  · rw [if_pos he] at h
    exact absurd h (by simp)
  · rw [if_neg he] at h
    rw [Option.some.injEq, Prod.mk.injEq] at h
    obtain ⟨hg, hrest⟩ := h
    by_cases hdw : rem.dropWhile (fun c => !(isSpace c)) = []
    · have htw : rem.takeWhile (fun c => !(isSpace c)) = rem :=
        takeWhile_of_dropWhile_nil _ rem hdw
      have h1 : (rem ++ ' ' :: j).takeWhile (fun c => !(isSpace c))
          = rem ++ (' ' :: j).takeWhile (fun c => !(isSpace c)) :=
        takeWhile_nil_append _ rem (' ' :: j) hdw
      have hsp : ((' ' :: j).takeWhile (fun c => !(isSpace c))) = [] := by
        rw [List.takeWhile_cons]
        norm_num [isSpace]
      rw [h1, hsp, List.append_nil]
      have h2 : (rem ++ ' ' :: j).dropWhile (fun c => !(isSpace c))
          = (' ' :: j).dropWhile (fun c => !(isSpace c)) :=
        dropWhile_nil_append _ rem (' ' :: j) hdw
      have hsp2 : ((' ' :: j).dropWhile (fun c => !(isSpace c))) = ' ' :: j := by
        rw [List.dropWhile_cons]
        norm_num [isSpace]
      rw [h2, hsp2]
      have hre : rem.isEmpty = false := by
        rw [htw] at he
        exact eq_false_of_ne_true he
      rw [if_neg (by simp [hre])]
      rw [← hg, htw, ← hrest, hdw, List.nil_append]
    · rw [takeWhile_append_pos _ rem (' ' :: j) hdw, if_neg he,
        dropWhile_append_pos _ rem (' ' :: j) hdw, hg, hrest]

theorem matchSep_append_pos (rem rem2 j : List Char)
    (h : matchSep rem = some rem2) (hne : rem2 ≠ []) :
    matchSep (rem ++ j) = some (rem2 ++ j) := by
  unfold matchSep at h ⊢
  by_cases he : (rem.takeWhile isSpace).isEmpty = true
  · rw [if_pos he] at h
    exact absurd h (by simp)
  · rw [if_neg he] at h
    rw [Option.some.injEq] at h
    have hdw : rem.dropWhile isSpace ≠ [] := h ▸ hne
    rw [takeWhile_append_pos _ rem j hdw, if_neg he, dropWhile_append_pos _ rem j hdw, h]

theorem matchSep_append_sp (rem rem2 j : List Char)
    (h : matchSep rem = some rem2) :
    ∃ rem3, matchSep (rem ++ ' ' :: j) = some rem3 := by
  unfold matchSep at h ⊢
  by_cases he : (rem.takeWhile isSpace).isEmpty = true
  · rw [if_pos he] at h
    exact absurd h (by simp)
  · by_cases hdw : rem.dropWhile isSpace = []
    · refine ⟨(rem ++ ' ' :: j).dropWhile isSpace, ?_⟩
      have hsp : (' ' :: j).takeWhile isSpace = ' ' :: j.takeWhile isSpace := by
        rw [List.takeWhile_cons, if_pos (by norm_num [isSpace])]
      rw [takeWhile_nil_append _ rem (' ' :: j) hdw, hsp, if_neg (by simp)]
    · rw [takeWhile_append_pos _ rem (' ' :: j) hdw, if_neg he]
      exact ⟨_, rfl⟩

theorem matchQuoted_cons (c : Char) (tail : List Char) :
    matchQuoted (c :: tail) =
      (if c = '"' then
        if (tail.takeWhile (fun x => x != '"')).isEmpty then none
        else
          match tail.dropWhile (fun x => x != '"') with
          | [] => none
          | _ :: r3 => some ('"' :: (tail.takeWhile (fun x => x != '"') ++ ['"']), r3)
      else none) := rfl

theorem matchSquare_cons (c : Char) (tail : List Char) :
    matchSquare (c :: tail) =
      (if c = '[' then
        if (tail.takeWhile (fun x => x != ']')).isEmpty then none
        else
          match tail.dropWhile (fun x => x != ']') with
          | [] => none
          | _ :: r3 => some ('[' :: (tail.takeWhile (fun x => x != ']') ++ [']']), r3)
      else none) := rfl

theorem matchQuoted_append (rem g rest sfx : List Char)
    (h : matchQuoted rem = some (g, rest)) :
    matchQuoted (rem ++ sfx) = some (g, rest ++ sfx) := by
  cases rem with
  | nil => exact absurd h (by simp [matchQuoted])
  | cons c tail =>
    rw [List.cons_append]
    rw [matchQuoted_cons] at h
    rw [matchQuoted_cons]
    by_cases hc : c = '"'
    · rw [if_pos hc] at h ⊢
      by_cases he : (tail.takeWhile (fun x => x != '"')).isEmpty = true
      · rw [if_pos he] at h
        exact absurd h (by simp)
      · rw [if_neg he] at h
        cases hdw : tail.dropWhile (fun x => x != '"') with
        | nil =>
          rw [hdw] at h
          exact absurd h (by simp)
        | cons d r3 =>
          rw [hdw] at h
          rw [Option.some.injEq, Prod.mk.injEq] at h
          obtain ⟨hg, hrest⟩ := h
          have hdne : tail.dropWhile (fun x => x != '"') ≠ [] := by rw [hdw]; simp
          rw [takeWhile_append_pos _ tail sfx hdne, if_neg he,
            dropWhile_append_pos _ tail sfx hdne, hdw, List.cons_append, hg, hrest]
    · rw [if_neg hc] at h
      exact absurd h (by simp)

theorem matchSquare_append (rem g rest sfx : List Char)
    (h : matchSquare rem = some (g, rest)) :
    matchSquare (rem ++ sfx) = some (g, rest ++ sfx) := by
  cases rem with
  | nil => exact absurd h (by simp [matchSquare])
  | cons c tail =>
    rw [List.cons_append]
    rw [matchSquare_cons] at h
    rw [matchSquare_cons]
    by_cases hc : c = '['
    · rw [if_pos hc] at h ⊢
      by_cases he : (tail.takeWhile (fun x => x != ']')).isEmpty = true
      · rw [if_pos he] at h
        exact absurd h (by simp)
      · rw [if_neg he] at h
        cases hdw : tail.dropWhile (fun x => x != ']') with
        | nil =>
          rw [hdw] at h
          exact absurd h (by simp)
        | cons d r3 =>
          rw [hdw] at h
          rw [Option.some.injEq, Prod.mk.injEq] at h
          obtain ⟨hg, hrest⟩ := h
          have hdne : tail.dropWhile (fun x => x != ']') ≠ [] := by rw [hdw]; simp
          rw [takeWhile_append_pos _ tail sfx hdne, if_neg he,
            dropWhile_append_pos _ tail sfx hdne, hdw, List.cons_append, hg, hrest]
    · rw [if_neg hc] at h
      exact absurd h (by simp)

theorem fieldMatcher_append (t rem g rest j : List Char)
    (h : fieldMatcher t rem = some (g, rest)) :
    fieldMatcher t (rem ++ ' ' :: j) = some (g, rest ++ ' ' :: j) := by
  unfold fieldMatcher at h ⊢
  by_cases hq : isQuotedTok t = true
  · rw [if_pos hq] at h ⊢
    exact matchQuoted_append rem g rest (' ' :: j) h
  · rw [if_neg hq] at h ⊢
    by_cases hs : isSquareTok t = true
    · rw [if_pos hs] at h ⊢
      exact matchSquare_append rem g rest (' ' :: j) h
    · rw [if_neg hs] at h ⊢
      exact matchString_append rem g rest j h

theorem fieldMatcher_nil (t : List Char) : fieldMatcher t [] = none := by
  unfold fieldMatcher
  by_cases hq : isQuotedTok t = true
  · rw [if_pos hq]
    rfl
  · rw [if_neg hq]
    by_cases hs : isSquareTok t = true
    · rw [if_pos hs]
      rfl
    · rw [if_neg hs]
      rfl

theorem parseFields_cons_some (t : List Char) (ts : List (List Char))
    (lt rem : List Char) (p : PyDict) (g rest : List Char)
    (hm : fieldMatcher t rem = some (g, rest)) :
    parseFields (t :: ts) lt rem p =
      (match processField (pyStrip t) g p with
       | .inl out => out
       | .inr p2 =>
         if pyStrip t = lt then parseFields ts lt rem p2
         else
           match matchSep rest with
           | none => .raised .attributeError
           | some rem2 => parseFields ts lt rem2 p2) := by
  rw [parseFields, hm]

theorem parseFields_cons_nil (t : List Char) (ts : List (List Char)) (lt : List Char)
    (p : PyDict) : parseFields (t :: ts) lt [] p = .failure := by
  rw [parseFields, fieldMatcher_nil]

theorem parseFields_append (j : List Char) :
    ∀ (ts : List (List Char)) (lt rem : List Char) (p r : PyDict),
      parseFields ts lt rem p = .ok r →
      parseFields ts lt (rem ++ ' ' :: j) p = .ok r
  | [], _, _, _, _, h => h
  | t :: ts, lt, rem, p, r, h => by
    cases hm : fieldMatcher t rem with
    | none =>
      rw [parseFields, hm] at h
      exact absurd h (by simp)
    | some grest =>
      obtain ⟨g, rest⟩ := grest
      rw [parseFields_cons_some t ts lt rem p g rest hm] at h
      rw [parseFields_cons_some t ts lt (rem ++ ' ' :: j) p g (rest ++ ' ' :: j)
        (fieldMatcher_append t rem g rest j hm)]
      cases hp : processField (pyStrip t) g p with
      | inl out =>
        rw [hp] at h
        exact h
      | inr p2 =>
        rw [hp] at h
        replace h : (if pyStrip t = lt then parseFields ts lt rem p2
            else
              match matchSep rest with
              | none => ParseOutcome.raised PyExn.attributeError
              | some rem2 => parseFields ts lt rem2 p2) = ParseOutcome.ok r := h
        show (if pyStrip t = lt then parseFields ts lt (rem ++ ' ' :: j) p2
            else
              match matchSep (rest ++ ' ' :: j) with
              | none => ParseOutcome.raised PyExn.attributeError
              | some rem2 => parseFields ts lt rem2 p2) = ParseOutcome.ok r
        by_cases hl : pyStrip t = lt
        · rw [if_pos hl] at h ⊢
          exact parseFields_append j ts lt rem p2 r h
        · rw [if_neg hl] at h ⊢
          cases hms : matchSep rest with
          | none =>
            rw [hms] at h
            exact absurd h (by simp)
          | some rem2 =>
            rw [hms] at h
            by_cases hne : rem2 = []
            · subst hne
              cases ts with
              | nil =>
                obtain ⟨rem3, hms3⟩ := matchSep_append_sp rest [] j hms
                rw [hms3]
                exact h
              | cons t2 ts2 =>
                replace h : parseFields (t2 :: ts2) lt [] p2 = ParseOutcome.ok r := h
                rw [parseFields_cons_nil t2 ts2 lt p2] at h
                exact absurd h (by simp)
            · replace h : parseFields ts lt rem2 p2 = ParseOutcome.ok r := h
              rw [matchSep_append_pos rest rem2 (' ' :: j) hms hne]
              exact parseFields_append j ts lt rem2 p2 r h

/-- C9: `parse_line` never requires the line to be fully consumed.  If a
line parses successfully, then the same line extended after the final
matched field by a whitespace character and arbitrary further content
still parses successfully, to the identical record: the loop performs no
end-of-line check after the last field. -/
theorem parse_line_ignores_trailing (l format : List Char) (r : PyDict) (j : List Char)
    (h : parse_line l format = .ok r) :
    parse_line (l ++ ' ' :: j) format = .ok r := by
  unfold parse_line at h ⊢
  cases hlt : (pySplitWs format).getLast? with
  | none =>
    rw [hlt] at h
    exact h
  | some lt =>
    rw [hlt] at h
    exact parseFields_append j (pySplitWs format) lt l [] r h

/-- Witness for the trailing-content theorem: the two-field template
`a b` accepts `x y` and equally accepts `x y junk`, producing the same
record. -/
theorem parse_line_ignores_trailing_witness :
    parse_line ("x y".toList ++ ' ' :: "junk".toList) "a b".toList
      = .ok [("a".toList, .str "x".toList), ("b".toList, .str "y".toList)] :=
  parse_line_ignores_trailing "x y".toList "a b".toList
    [("a".toList, .str "x".toList), ("b".toList, .str "y".toList)] "junk".toList rfl

theorem dictFind_insert_self : ∀ (d : PyDict) (k : List Char) (v : FieldVal),
    dictFind (dictInsert d k v) k = some v
  | [], k, v => by simp [dictInsert, dictFind]
  | (k0, v0) :: rest, k, v => by
    by_cases h : k0 = k
    · rw [dictInsert, if_pos h, dictFind, if_pos h]
    · rw [dictInsert, if_neg h, dictFind, if_neg h]
      exact dictFind_insert_self rest k v

theorem dictFind_insert_ne : ∀ (d : PyDict) (k' k : List Char) (v : FieldVal),
    k' ≠ k → dictFind (dictInsert d k' v) k = dictFind d k
  | [], k', k, v, h => by
    simp [dictInsert, dictFind, h]
  | (k0, v0) :: rest, k', k, v, h => by
    by_cases h0 : k0 = k'
    · rw [dictInsert, if_pos h0, dictFind, dictFind]
      subst h0
      rw [if_neg h, if_neg h]
    · rw [dictInsert, if_neg h0, dictFind, dictFind]
      by_cases hk : k0 = k
      · rw [if_pos hk, if_pos hk]
      · rw [if_neg hk, if_neg hk]
        exact dictFind_insert_ne rest k' k v h

theorem dictFind_insert_pres (d : PyDict) (k' k : List Char) (v : FieldVal)
    (h : ∃ w, dictFind d k = some w) : ∃ w, dictFind (dictInsert d k' v) k = some w := by
  by_cases hk : k' = k
  · subst hk
    exact ⟨v, dictFind_insert_self d k' v⟩
  · rw [dictFind_insert_ne d k' k v hk]
    exact h

theorem urlStepFn_not_rq (name g : List Char) (p : PyDict) (hn : name ≠ rqKey) :
    urlStepFn name g p = some p := by
  rw [urlStepFn, if_neg hn]

theorem urlStepFn_rq_inv (g : List Char) (p p1 : PyDict)
    (h : urlStepFn rqKey g p = some p1) :
    ∃ a u tail, pySplitWs g = a :: u :: tail ∧ p1 = dictInsert p urlKey (.str u) := by
  rw [urlStepFn, if_pos rfl] at h
  cases hsp : pySplitWs g with
  | nil =>
    rw [hsp] at h
    exact Option.noConfusion h
  | cons a t2 =>
    cases t2 with
    | nil =>
      rw [hsp] at h
      exact Option.noConfusion h
    | cons u tail =>
      rw [hsp] at h
      replace h : some (dictInsert p urlKey (.str u)) = some p1 := h
      injection h with h2
      exact ⟨a, u, tail, rfl, h2.symm⟩

theorem valStepFn_not_rt (name g : List Char) (hn : name ≠ rtKey) :
    valStepFn name g = some (.str g) := by
  rw [valStepFn, if_neg hn]

theorem valStepFn_rt_inv (g : List Char) (v : FieldVal)
    (h : valStepFn rtKey g = some v) :
    ∃ q, pyFloat? g = some q ∧ v = .num q := by
  rw [valStepFn, if_pos rfl] at h
  cases hq : pyFloat? g with
  | none =>
    rw [hq] at h
    exact Option.noConfusion h
  | some q =>
    rw [hq] at h
    replace h : some (FieldVal.num q) = some v := h
    injection h with h2
    exact ⟨q, rfl, h2.symm⟩

theorem processField_inr_inv (name g : List Char) (p p2 : PyDict)
    (h : processField name g p = .inr p2) :
    ∃ p1 v, urlStepFn name g p = some p1 ∧ valStepFn name g = some v ∧
      p2 = dictInsert p1 name v := by
  rw [processField] at h
  cases hu : urlStepFn name g p with
  | none =>
    rw [hu] at h
    exact Sum.noConfusion h
  | some p1 =>
    rw [hu] at h
    cases hv : valStepFn name g with
    | none =>
      rw [hv] at h
      exact Sum.noConfusion h
    | some v =>
      rw [hv] at h
      replace h : (Sum.inr (dictInsert p1 name v) : ParseOutcome ⊕ PyDict) = .inr p2 := h
      injection h with h2
      exact ⟨p1, v, rfl, rfl, h2.symm⟩

theorem processField_inl_shape (name g : List Char) (p : PyDict) (out : ParseOutcome)
    (h : processField name g p = .inl out) :
    out = .failure ∨ out = .raised .valueError := by
  rw [processField] at h
  cases hu : urlStepFn name g p with
  | none =>
    rw [hu] at h
    replace h : (Sum.inl ParseOutcome.failure : ParseOutcome ⊕ PyDict) = .inl out := h
    injection h with h2
    exact Or.inl h2.symm
  | some p1 =>
    rw [hu] at h
    cases hv : valStepFn name g with
    | none =>
      rw [hv] at h
      replace h : (Sum.inl (ParseOutcome.raised .valueError) : ParseOutcome ⊕ PyDict)
          = .inl out := h
      injection h with h2
      exact Or.inr h2.symm
    | some v =>
      rw [hv] at h
      exact Sum.noConfusion h

theorem parseFields_cons_ok_inv (t : List Char) (ts : List (List Char))
    (lt rem : List Char) (p r : PyDict)
    (h : parseFields (t :: ts) lt rem p = .ok r) :
    ∃ g rest p2, fieldMatcher t rem = some (g, rest) ∧
      processField (pyStrip t) g p = .inr p2 ∧
      ((pyStrip t = lt ∧ parseFields ts lt rem p2 = .ok r) ∨
       (pyStrip t ≠ lt ∧ ∃ rem2, matchSep rest = some rem2 ∧
         parseFields ts lt rem2 p2 = .ok r)) := by
  cases hm : fieldMatcher t rem with
  | none =>
    rw [parseFields, hm] at h
    exact absurd h (by simp)
  | some grest =>
    obtain ⟨g, rest⟩ := grest
    rw [parseFields_cons_some t ts lt rem p g rest hm] at h
    refine ⟨g, rest, ?_⟩
    cases hp : processField (pyStrip t) g p with
    | inl out =>
      rw [hp] at h
      replace h : out = ParseOutcome.ok r := h
      rcases processField_inl_shape (pyStrip t) g p out hp with rfl | rfl
      · exact absurd h (by simp)
      · exact absurd h (by simp)
    | inr p2 =>
      rw [hp] at h
      replace h : (if pyStrip t = lt then parseFields ts lt rem p2
          else
            match matchSep rest with
            | none => ParseOutcome.raised PyExn.attributeError
            | some rem2 => parseFields ts lt rem2 p2) = ParseOutcome.ok r := h
      refine ⟨p2, rfl, rfl, ?_⟩
      by_cases hl : pyStrip t = lt
      · rw [if_pos hl] at h
        exact Or.inl ⟨hl, h⟩
      · rw [if_neg hl] at h
        cases hms : matchSep rest with
        | none =>
          rw [hms] at h
          exact absurd h (by simp)
        | some rem2 =>
          rw [hms] at h
          replace h : parseFields ts lt rem2 p2 = ParseOutcome.ok r := h
          exact Or.inr ⟨hl, rem2, rfl, h⟩

theorem processField_find_ne (name g : List Char) (p p2 : PyDict) (k : List Char)
    (hp : processField name g p = .inr p2) (hk : name ≠ k)
    (hk2 : k = urlKey → name ≠ rqKey) :
    dictFind p2 k = dictFind p k := by
  obtain ⟨p1, v, hu, hv, rfl⟩ := processField_inr_inv name g p p2 hp
  rw [dictFind_insert_ne p1 name k v hk]
  by_cases hn : name = rqKey
  · subst hn
    obtain ⟨a, u, tail, hsp, rfl⟩ := urlStepFn_rq_inv g p p1 hu
    have hku : urlKey ≠ k := fun he => (hk2 he.symm) rfl
    rw [dictFind_insert_ne p urlKey k (.str u) hku]
  · rw [urlStepFn_not_rq name g p hn] at hu
    cases hu
    rfl

theorem processField_present (name g : List Char) (p p2 : PyDict)
    (hp : processField name g p = .inr p2) :
    (∃ v, dictFind p2 name = some v) ∧
    (∀ k, (∃ w, dictFind p k = some w) → ∃ w, dictFind p2 k = some w) := by
  obtain ⟨p1, v, hu, hv, rfl⟩ := processField_inr_inv name g p p2 hp
  have hpres1 : ∀ k, (∃ w, dictFind p k = some w) → ∃ w, dictFind p1 k = some w := by
    intro k hw
    by_cases hn : name = rqKey
    · subst hn
      obtain ⟨a, u, tail, hsp, rfl⟩ := urlStepFn_rq_inv g p p1 hu
      exact dictFind_insert_pres p urlKey k (.str u) hw
    · rw [urlStepFn_not_rq name g p hn] at hu
      cases hu
      exact hw
  refine ⟨⟨v, dictFind_insert_self p1 name v⟩, ?_⟩
  intro k hw
  exact dictFind_insert_pres p1 name k v (hpres1 k hw)

theorem processField_rt (g : List Char) (p p2 : PyDict)
    (hp : processField rtKey g p = .inr p2) :
    ∃ q, pyFloat? g = some q ∧ dictFind p2 rtKey = some (.num q) := by
  obtain ⟨p1, v, hu, hv, rfl⟩ := processField_inr_inv rtKey g p p2 hp
  obtain ⟨q, hq, rfl⟩ := valStepFn_rt_inv g v hv
  exact ⟨q, hq, dictFind_insert_self p1 rtKey (.num q)⟩

theorem processField_rq (g : List Char) (p p2 : PyDict)
    (hp : processField rqKey g p = .inr p2) :
    ∃ a u tail, pySplitWs g = a :: u :: tail ∧
      dictFind p2 rqKey = some (.str g) ∧
      dictFind p2 urlKey = some (.str u) := by
  obtain ⟨p1, v, hu, hv, rfl⟩ := processField_inr_inv rqKey g p p2 hp
  obtain ⟨a, u, tail, hsp, rfl⟩ := urlStepFn_rq_inv g p p1 hu
  rw [valStepFn_not_rt rqKey g (by decide)] at hv
  replace hv : some (FieldVal.str g) = some v := hv
  injection hv with hv2
  subst hv2
  refine ⟨a, u, tail, hsp, dictFind_insert_self _ _ _, ?_⟩
  rw [dictFind_insert_ne _ rqKey urlKey _ (by decide)]
  exact dictFind_insert_self _ _ _

theorem parseFields_frame :
    ∀ (ts : List (List Char)) (lt rem : List Char) (p r : PyDict) (k : List Char),
      parseFields ts lt rem p = .ok r →
      (∀ t ∈ ts, pyStrip t ≠ k) →
      (k = urlKey → ∀ t ∈ ts, pyStrip t ≠ rqKey) →
      dictFind r k = dictFind p k
  | [], _, _, p, r, k, h, _, _ => by
    replace h : ParseOutcome.ok p = ParseOutcome.ok r := h
    injection h with h2
    rw [h2]
  | t :: ts, lt, rem, p, r, k, h, hk, hk2 => by
    obtain ⟨g, rest, p2, hm, hp, hbr⟩ := parseFields_cons_ok_inv t ts lt rem p r h
    have hfind : dictFind p2 k = dictFind p k :=
      processField_find_ne (pyStrip t) g p p2 k hp (hk t (List.mem_cons_self t ts))
        (fun he => hk2 he t (List.mem_cons_self t ts))
    have hk' : ∀ t' ∈ ts, pyStrip t' ≠ k :=
      fun t' ht' => hk t' (List.mem_cons_of_mem t ht')
    have hk2' : k = urlKey → ∀ t' ∈ ts, pyStrip t' ≠ rqKey :=
      fun he t' ht' => hk2 he t' (List.mem_cons_of_mem t ht')
    rcases hbr with ⟨-, h2⟩ | ⟨-, rem2, -, h2⟩
    · rw [parseFields_frame ts lt rem p2 r k h2 hk' hk2', hfind]
    · rw [parseFields_frame ts lt rem2 p2 r k h2 hk' hk2', hfind]

theorem parseFields_rt :
    ∀ (ts : List (List Char)) (lt rem : List Char) (p r : PyDict),
      parseFields ts lt rem p = .ok r →
      ((∃ t ∈ ts, pyStrip t = rtKey) ∨
        (∃ q gt, pyFloat? gt = some q ∧ dictFind p rtKey = some (.num q))) →
      ∃ q gt, pyFloat? gt = some q ∧ dictFind r rtKey = some (.num q)
  | [], _, _, p, r, h, hd => by
    replace h : ParseOutcome.ok p = ParseOutcome.ok r := h
    injection h with h2
    rcases hd with ⟨t, ht, -⟩ | ⟨q, gt, hq, hf⟩
    · exact absurd ht (List.not_mem_nil t)
    · exact ⟨q, gt, hq, h2 ▸ hf⟩
  | t :: ts, lt, rem, p, r, h, hd => by
    obtain ⟨g, rest, p2, hm, hp, hbr⟩ := parseFields_cons_ok_inv t ts lt rem p r h
    have hnext : (∃ t' ∈ ts, pyStrip t' = rtKey) ∨
        (∃ q gt, pyFloat? gt = some q ∧ dictFind p2 rtKey = some (.num q)) := by
      by_cases hn : pyStrip t = rtKey
      · rw [hn] at hp
        obtain ⟨q, hq, hf⟩ := processField_rt g p p2 hp
        exact Or.inr ⟨q, g, hq, hf⟩
      · rcases hd with ⟨t', ht', hteq⟩ | ⟨q, gt, hq, hf⟩
        · rcases List.mem_cons.mp ht' with rfl | ht'
          · exact absurd hteq hn
          · exact Or.inl ⟨t', ht', hteq⟩
        · refine Or.inr ⟨q, gt, hq, ?_⟩
          rw [processField_find_ne (pyStrip t) g p p2 rtKey hp hn
            (fun he => absurd he (by decide))]
          exact hf
    rcases hbr with ⟨-, h2⟩ | ⟨-, rem2, -, h2⟩
    · exact parseFields_rt ts lt rem p2 r h2 hnext
    · exact parseFields_rt ts lt rem2 p2 r h2 hnext

theorem parseFields_present :
    ∀ (ts : List (List Char)) (lt rem : List Char) (p r : PyDict),
      parseFields ts lt rem p = .ok r →
      (∀ t ∈ ts, ∃ v, dictFind r (pyStrip t) = some v) ∧
      (∀ k, (∃ v, dictFind p k = some v) → ∃ v, dictFind r k = some v)
  | [], _, _, p, r, h => by
    replace h : ParseOutcome.ok p = ParseOutcome.ok r := h
    injection h with h2
    subst h2
    exact ⟨fun t ht => absurd ht (List.not_mem_nil t), fun k hv => hv⟩
  | t :: ts, lt, rem, p, r, h => by
    obtain ⟨g, rest, p2, hm, hp, hbr⟩ := parseFields_cons_ok_inv t ts lt rem p r h
    have hpp := processField_present (pyStrip t) g p p2 hp
    have hih : (∀ t' ∈ ts, ∃ v, dictFind r (pyStrip t') = some v) ∧
        (∀ k, (∃ v, dictFind p2 k = some v) → ∃ v, dictFind r k = some v) := by
      rcases hbr with ⟨-, h2⟩ | ⟨-, rem2, -, h2⟩
      · exact parseFields_present ts lt rem p2 r h2
      · exact parseFields_present ts lt rem2 p2 r h2
    refine ⟨?_, fun k hv => hih.2 k (hpp.2 k hv)⟩
    intro t' ht'
    rcases List.mem_cons.mp ht' with rfl | ht'
    · exact hih.2 (pyStrip t') hpp.1
    · exact hih.1 t' ht'

theorem matchQuoted_shape (rem g rest : List Char) (h : matchQuoted rem = some (g, rest)) :
    ∃ mid, mid ≠ [] ∧ g = '"' :: (mid ++ ['"']) := by
  cases rem with
  | nil => exact absurd h (by simp [matchQuoted])
  | cons c tail =>
    rw [matchQuoted_cons] at h
    by_cases hc : c = '"'
    · rw [if_pos hc] at h
      by_cases he : (tail.takeWhile (fun x => x != '"')).isEmpty = true
      · rw [if_pos he] at h
        exact Option.noConfusion h
      · rw [if_neg he] at h
        cases hdw : tail.dropWhile (fun x => x != '"') with
        | nil =>
          rw [hdw] at h
          exact Option.noConfusion h
        | cons d r3 =>
          rw [hdw] at h
          replace h : some ('"' :: (tail.takeWhile (fun x => x != '"') ++ ['"']), r3)
              = some (g, rest) := h
          injection h with h2
          rw [Prod.mk.injEq] at h2
          obtain ⟨hg, -⟩ := h2
          refine ⟨tail.takeWhile (fun x => x != '"'), ?_, hg.symm⟩
          intro hnil
          rw [hnil] at he
          exact he rfl
    · rw [if_neg hc] at h
      exact Option.noConfusion h

/-- Token list of `LOG_FORMAT`, as `format.split()` produces it. -/
def LOG_TOKENS : List (List Char) :=
  ["remote_addr".toList, "remote_user".toList, "http_x_real_ip".toList,
   "[time_local]".toList, "\"request\"".toList, "status".toList,
   "body_bytes_sent".toList, "\"http_referer\"".toList, "\"http_user_agent\"".toList,
   "\"http_x_forwarded_for\"".toList, "\"http_X_REQUEST_ID\"".toList,
   "\"http_X_RB_USER\"".toList, "request_time".toList]

theorem pySplitWs_LOG_FORMAT : pySplitWs LOG_FORMAT = LOG_TOKENS := by decide


theorem dropWhile_head_false (p : Char → Bool) :
    ∀ (l : List Char) (c : Char) (cs : List Char), l.dropWhile p = c :: cs → p c = false
  | [], c, cs, h => by exact absurd h (by simp)
  | d :: ds, c, cs, h => by
    rw [List.dropWhile_cons] at h
    by_cases hp : p d
    · rw [if_pos hp] at h
      exact dropWhile_head_false p ds c cs h
    · rw [if_neg hp] at h
      injection h with h1 h2
      rw [← h1]
      exact eq_false_of_ne_true hp

theorem all_takeWhile (p : Char → Bool) :
    ∀ l : List Char, (l.takeWhile p).all p = true
  | [] => rfl
  | c :: cs => by
    rw [List.takeWhile_cons]
    by_cases hp : p c
    · rw [if_pos hp, List.all_cons, hp, Bool.true_and]
      exact all_takeWhile p cs
    · rw [if_neg hp]
      rfl

theorem matchString_span (rem g rest : List Char) (h : matchString rem = some (g, rest)) :
    rem = g ++ rest := by
  unfold matchString at h
  by_cases he : (rem.takeWhile (fun c => !(isSpace c))).isEmpty = true
  · rw [if_pos he] at h
    exact Option.noConfusion h
  · rw [if_neg he] at h
    rw [Option.some.injEq, Prod.mk.injEq] at h
    obtain ⟨hg, hrest⟩ := h
    rw [← hg, ← hrest, List.takeWhile_append_dropWhile]

theorem matchQuoted_span (rem g rest : List Char) (h : matchQuoted rem = some (g, rest)) :
    rem = g ++ rest := by
  cases rem with
  | nil => exact absurd h (by simp [matchQuoted])
  | cons c tail =>
    rw [matchQuoted_cons] at h
    by_cases hc : c = '"'
    · rw [if_pos hc] at h
      by_cases he : (tail.takeWhile (fun x => x != '"')).isEmpty = true
      · rw [if_pos he] at h
        exact Option.noConfusion h
      · rw [if_neg he] at h
        cases hdw : tail.dropWhile (fun x => x != '"') with
        | nil =>
          rw [hdw] at h
          exact Option.noConfusion h
        | cons d r3 =>
          rw [hdw] at h
          replace h : some ('"' :: (tail.takeWhile (fun x => x != '"') ++ ['"']), r3)
              = some (g, rest) := h
          injection h with h2
          rw [Prod.mk.injEq] at h2
          obtain ⟨hg, hrest⟩ := h2
          have hdq : d = '"' := by
            have hf := dropWhile_head_false (fun x => x != '"') tail d r3 hdw
            simpa using hf
          have htail : tail = tail.takeWhile (fun x => x != '"') ++ ('"' :: r3) := by
            conv_lhs => rw [← List.takeWhile_append_dropWhile (fun x => x != '"') tail]
            rw [hdw, hdq]
          subst hc
          rw [← hg, ← hrest, List.cons_append]
          congr 1
          conv_lhs => rw [htail]
          rw [List.append_assoc, List.singleton_append]
    · rw [if_neg hc] at h
      exact Option.noConfusion h

theorem matchSquare_span (rem g rest : List Char) (h : matchSquare rem = some (g, rest)) :
    rem = g ++ rest := by
  cases rem with
  | nil => exact absurd h (by simp [matchSquare])
  | cons c tail =>
    rw [matchSquare_cons] at h
    by_cases hc : c = '['
    · rw [if_pos hc] at h
      by_cases he : (tail.takeWhile (fun x => x != ']')).isEmpty = true
      · rw [if_pos he] at h
        exact Option.noConfusion h
      · rw [if_neg he] at h
        cases hdw : tail.dropWhile (fun x => x != ']') with
        | nil =>
          rw [hdw] at h
          exact Option.noConfusion h
        | cons d r3 =>
          rw [hdw] at h
          replace h : some ('[' :: (tail.takeWhile (fun x => x != ']') ++ [']']), r3)
              = some (g, rest) := h
          injection h with h2
          rw [Prod.mk.injEq] at h2
          obtain ⟨hg, hrest⟩ := h2
          have hdq : d = ']' := by
            have hf := dropWhile_head_false (fun x => x != ']') tail d r3 hdw
            simpa using hf
          have htail : tail = tail.takeWhile (fun x => x != ']') ++ (']' :: r3) := by
            conv_lhs => rw [← List.takeWhile_append_dropWhile (fun x => x != ']') tail]
            rw [hdw, hdq]
          subst hc
          rw [← hg, ← hrest, List.cons_append]
          congr 1
          conv_lhs => rw [htail]
          rw [List.append_assoc, List.singleton_append]
    · rw [if_neg hc] at h
      exact Option.noConfusion h

theorem matchSquare_shape (rem g rest : List Char) (h : matchSquare rem = some (g, rest)) :
    ∃ mid, mid ≠ [] ∧ g = '[' :: (mid ++ [']']) := by
  cases rem with
  | nil => exact absurd h (by simp [matchSquare])
  | cons c tail =>
    rw [matchSquare_cons] at h
    by_cases hc : c = '['
    · rw [if_pos hc] at h
      by_cases he : (tail.takeWhile (fun x => x != ']')).isEmpty = true
      · rw [if_pos he] at h
        exact Option.noConfusion h
      · rw [if_neg he] at h
        cases hdw : tail.dropWhile (fun x => x != ']') with
        | nil =>
          rw [hdw] at h
          exact Option.noConfusion h
        | cons d r3 =>
          rw [hdw] at h
          replace h : some ('[' :: (tail.takeWhile (fun x => x != ']') ++ [']']), r3)
              = some (g, rest) := h
          injection h with h2
          rw [Prod.mk.injEq] at h2
          obtain ⟨hg, -⟩ := h2
          refine ⟨tail.takeWhile (fun x => x != ']'), ?_, hg.symm⟩
          intro hnil
          rw [hnil] at he
          exact he rfl
    · rw [if_neg hc] at h
      exact Option.noConfusion h

theorem fieldMatcher_span (t rem g rest : List Char)
    (h : fieldMatcher t rem = some (g, rest)) : rem = g ++ rest := by
  unfold fieldMatcher at h
  by_cases hq : isQuotedTok t = true
  · rw [if_pos hq] at h
    exact matchQuoted_span rem g rest h
  · rw [if_neg hq] at h
    by_cases hs : isSquareTok t = true
    · rw [if_pos hs] at h
      exact matchSquare_span rem g rest h
    · rw [if_neg hs] at h
      exact matchString_span rem g rest h

/-- Property of the text a successful separator match consumed: a
nonempty run of whitespace. -/
def isSepRun (s : List Char) : Prop := s ≠ [] ∧ s.all isSpace = true

theorem matchSep_span (rem rem2 : List Char) (h : matchSep rem = some rem2) :
    ∃ s, isSepRun s ∧ rem = s ++ rem2 := by
  unfold matchSep at h
  by_cases he : (rem.takeWhile isSpace).isEmpty = true
  · rw [if_pos he] at h
    exact Option.noConfusion h
  · rw [if_neg he] at h
    injection h with h2
    refine ⟨rem.takeWhile isSpace, ⟨?_, all_takeWhile isSpace rem⟩, ?_⟩
    · intro hnil
      rw [hnil] at he
      exact he rfl
    · rw [← h2, List.takeWhile_append_dropWhile]

theorem processField_plain_inv (name g : List Char) (p p2 : PyDict)
    (h1 : name ≠ rqKey) (h2 : name ≠ rtKey) (hp : processField name g p = .inr p2) :
    p2 = dictInsert p name (.str g) := by
  obtain ⟨p1, v, hu, hv, rfl⟩ := processField_inr_inv name g p p2 hp
  rw [urlStepFn_not_rq name g p h1] at hu
  rw [valStepFn_not_rt name g h2] at hv
  injection hu with hu2
  injection hv with hv2
  rw [← hu2, ← hv2]

theorem processField_rt_inv2 (g : List Char) (p p2 : PyDict)
    (hp : processField rtKey g p = .inr p2) :
    ∃ q, pyFloat? g = some q ∧ p2 = dictInsert p rtKey (.num q) := by
  obtain ⟨p1, v, hu, hv, rfl⟩ := processField_inr_inv rtKey g p p2 hp
  rw [urlStepFn_not_rq rtKey g p (by decide)] at hu
  injection hu with hu2
  obtain ⟨q, hq, rfl⟩ := valStepFn_rt_inv g v hv
  exact ⟨q, hq, by rw [← hu2]⟩

theorem processField_rq_inv2 (g : List Char) (p p2 : PyDict)
    (hp : processField rqKey g p = .inr p2) :
    ∃ a u tail, pySplitWs g = a :: u :: tail ∧
      p2 = dictInsert (dictInsert p urlKey (.str u)) rqKey (.str g) := by
  obtain ⟨p1, v, hu, hv, rfl⟩ := processField_inr_inv rqKey g p p2 hp
  obtain ⟨a, u, tail, hsp, rfl⟩ := urlStepFn_rq_inv g p p1 hu
  rw [valStepFn_not_rt rqKey g (by decide)] at hv
  injection hv with hv2
  exact ⟨a, u, tail, hsp, by rw [← hv2]⟩

/-- C5: a line accepted by `parse_line` against `LOG_FORMAT` decomposes
into the thirteen matched field texts separated by nonempty whitespace
runs (with the unexamined remainder after the final field), and the
returned record is exactly the mapping from each template field name to
its raw matched substring — the bracketed `time_local` and the five
quoted header fields still carrying their delimiters, the `request`
value likewise quoted, `url` holding the second whitespace-separated
token of the `request` text, and `request_time` holding the `float()`
image of the final matched token `g13`. -/
theorem parse_line_wellformed_record (l : List Char) (r : PyDict)
    (h : parse_line l LOG_FORMAT = .ok r) :
    ∃ g1 g2 g3 g4 g5 g6 g7 g8 g9 g10 g11 g12 g13 u : List Char, ∃ q : ℚ,
    ∃ s1 s2 s3 s4 s5 s6 s7 s8 s9 s10 s11 s12 post : List Char,
      l = g1 ++ (s1 ++ (g2 ++ (s2 ++ (g3 ++ (s3 ++ (g4 ++ (s4 ++ (g5 ++ (s5 ++
        (g6 ++ (s6 ++ (g7 ++ (s7 ++ (g8 ++ (s8 ++ (g9 ++ (s9 ++ (g10 ++ (s10 ++
        (g11 ++ (s11 ++ (g12 ++ (s12 ++ (g13 ++ post)))))))))))))))))))))))) ∧
      (∀ s ∈ [s1, s2, s3, s4, s5, s6, s7, s8, s9, s10, s11, s12], isSepRun s) ∧
      r = [("remote_addr".toList, .str g1), ("remote_user".toList, .str g2),
           ("http_x_real_ip".toList, .str g3), ("time_local".toList, .str g4),
           (urlKey, .str u), (rqKey, .str g5), ("status".toList, .str g6),
           ("body_bytes_sent".toList, .str g7), ("http_referer".toList, .str g8),
           ("http_user_agent".toList, .str g9),
           ("http_x_forwarded_for".toList, .str g10),
           ("http_X_REQUEST_ID".toList, .str g11),
           ("http_X_RB_USER".toList, .str g12), (rtKey, .num q)] ∧
      pyFloat? g13 = some q ∧
      (∃ a tail, pySplitWs g5 = a :: u :: tail) ∧
      (∃ m, m ≠ [] ∧ g5 = '"' :: (m ++ ['"'])) ∧
      (∃ m, m ≠ [] ∧ g4 = '[' :: (m ++ [']'])) ∧
      (∀ g ∈ [g8, g9, g10, g11, g12], ∃ m, m ≠ [] ∧ g = '"' :: (m ++ ['"'])) := by
  unfold parse_line at h
  rw [pySplitWs_LOG_FORMAT] at h
  rw [show LOG_TOKENS.getLast? = some ("request_time".toList) from rfl] at h
  replace h : parseFields LOG_TOKENS ("request_time".toList) l [] = .ok r := h
  obtain ⟨g1, rest1, p1, hm1, hp1, hbr1⟩ := parseFields_cons_ok_inv _ _ _ _ _ _ h
  rcases hbr1 with ⟨heq, -⟩ | ⟨-, rem1, hsep1, h1⟩
  · exact absurd heq (by decide)
  have hspan1 : l = g1 ++ rest1 := fieldMatcher_span _ _ _ _ hm1
  obtain ⟨s1, hsr1, hseq1⟩ := matchSep_span rest1 rem1 hsep1
  have hpd1 := processField_plain_inv _ g1 [] p1 (by decide) (by decide) hp1
  subst hpd1
  obtain ⟨g2, rest2, p2, hm2, hp2, hbr2⟩ := parseFields_cons_ok_inv _ _ _ _ _ _ h1
  rcases hbr2 with ⟨heq, -⟩ | ⟨-, rem2, hsep2, h2⟩
  · exact absurd heq (by decide)
  have hspan2 : rem1 = g2 ++ rest2 := fieldMatcher_span _ _ _ _ hm2
  obtain ⟨s2, hsr2, hseq2⟩ := matchSep_span rest2 rem2 hsep2
  have hpd2 := processField_plain_inv _ g2 _ p2 (by decide) (by decide) hp2
  subst hpd2
  obtain ⟨g3, rest3, p3, hm3, hp3, hbr3⟩ := parseFields_cons_ok_inv _ _ _ _ _ _ h2
  rcases hbr3 with ⟨heq, -⟩ | ⟨-, rem3, hsep3, h3⟩
  · exact absurd heq (by decide)
  have hspan3 : rem2 = g3 ++ rest3 := fieldMatcher_span _ _ _ _ hm3
  obtain ⟨s3, hsr3, hseq3⟩ := matchSep_span rest3 rem3 hsep3
  have hpd3 := processField_plain_inv _ g3 _ p3 (by decide) (by decide) hp3
  subst hpd3
  obtain ⟨g4, rest4, p4, hm4, hp4, hbr4⟩ := parseFields_cons_ok_inv _ _ _ _ _ _ h3
  rcases hbr4 with ⟨heq, -⟩ | ⟨-, rem4, hsep4, h4⟩
  · exact absurd heq (by decide)
  have hspan4 : rem3 = g4 ++ rest4 := fieldMatcher_span _ _ _ _ hm4
  obtain ⟨s4, hsr4, hseq4⟩ := matchSep_span rest4 rem4 hsep4
  have hm4q : matchSquare rem3 = some (g4, rest4) := by
    rw [show fieldMatcher ("[time_local]".toList) rem3 = matchSquare rem3 from by
      rw [fieldMatcher, if_neg (by decide), if_pos (by decide)]] at hm4
    exact hm4
  obtain ⟨m4, hm4ne, hg4⟩ := matchSquare_shape rem3 g4 rest4 hm4q
  have hpd4 := processField_plain_inv _ g4 _ p4 (by decide) (by decide) hp4
  subst hpd4
  obtain ⟨g5, rest5, p5, hm5, hp5, hbr5⟩ := parseFields_cons_ok_inv _ _ _ _ _ _ h4
  rcases hbr5 with ⟨heq, -⟩ | ⟨-, rem5, hsep5, h5⟩
  · exact absurd heq (by decide)
  have hspan5 : rem4 = g5 ++ rest5 := fieldMatcher_span _ _ _ _ hm5
  obtain ⟨s5, hsr5, hseq5⟩ := matchSep_span rest5 rem5 hsep5
  have hm5q : matchQuoted rem4 = some (g5, rest5) := by
    rw [show fieldMatcher ("\"request\"".toList) rem4 = matchQuoted rem4 from by
      rw [fieldMatcher, if_pos (by decide)]] at hm5
    exact hm5
  obtain ⟨m5, hm5ne, hg5⟩ := matchQuoted_shape rem4 g5 rest5 hm5q
  rw [show pyStrip ("\"request\"".toList) = rqKey from by decide] at hp5
  obtain ⟨a, u, tail, hsp, hpd5⟩ := processField_rq_inv2 g5 _ p5 hp5
  subst hpd5
  obtain ⟨g6, rest6, p6, hm6, hp6, hbr6⟩ := parseFields_cons_ok_inv _ _ _ _ _ _ h5
  rcases hbr6 with ⟨heq, -⟩ | ⟨-, rem6, hsep6, h6⟩
  · exact absurd heq (by decide)
  have hspan6 : rem5 = g6 ++ rest6 := fieldMatcher_span _ _ _ _ hm6
  obtain ⟨s6, hsr6, hseq6⟩ := matchSep_span rest6 rem6 hsep6
  have hpd6 := processField_plain_inv _ g6 _ p6 (by decide) (by decide) hp6
  subst hpd6
  obtain ⟨g7, rest7, p7, hm7, hp7, hbr7⟩ := parseFields_cons_ok_inv _ _ _ _ _ _ h6
  rcases hbr7 with ⟨heq, -⟩ | ⟨-, rem7, hsep7, h7⟩
  · exact absurd heq (by decide)
  have hspan7 : rem6 = g7 ++ rest7 := fieldMatcher_span _ _ _ _ hm7
  obtain ⟨s7, hsr7, hseq7⟩ := matchSep_span rest7 rem7 hsep7
  have hpd7 := processField_plain_inv _ g7 _ p7 (by decide) (by decide) hp7
  subst hpd7
  obtain ⟨g8, rest8, p8, hm8, hp8, hbr8⟩ := parseFields_cons_ok_inv _ _ _ _ _ _ h7
  rcases hbr8 with ⟨heq, -⟩ | ⟨-, rem8, hsep8, h8⟩
  · exact absurd heq (by decide)
  have hspan8 : rem7 = g8 ++ rest8 := fieldMatcher_span _ _ _ _ hm8
  obtain ⟨s8, hsr8, hseq8⟩ := matchSep_span rest8 rem8 hsep8
  have hm8q : matchQuoted rem7 = some (g8, rest8) := by
    rw [show fieldMatcher ("\"http_referer\"".toList) rem7 = matchQuoted rem7 from by
      rw [fieldMatcher, if_pos (by decide)]] at hm8
    exact hm8
  obtain ⟨m8, hm8ne, hg8⟩ := matchQuoted_shape rem7 g8 rest8 hm8q
  have hpd8 := processField_plain_inv _ g8 _ p8 (by decide) (by decide) hp8
  subst hpd8
  obtain ⟨g9, rest9, p9, hm9, hp9, hbr9⟩ := parseFields_cons_ok_inv _ _ _ _ _ _ h8
  rcases hbr9 with ⟨heq, -⟩ | ⟨-, rem9, hsep9, h9⟩
  · exact absurd heq (by decide)
  have hspan9 : rem8 = g9 ++ rest9 := fieldMatcher_span _ _ _ _ hm9
  obtain ⟨s9, hsr9, hseq9⟩ := matchSep_span rest9 rem9 hsep9
  have hm9q : matchQuoted rem8 = some (g9, rest9) := by
    rw [show fieldMatcher ("\"http_user_agent\"".toList) rem8 = matchQuoted rem8 from by
      rw [fieldMatcher, if_pos (by decide)]] at hm9
    exact hm9
  obtain ⟨m9, hm9ne, hg9⟩ := matchQuoted_shape rem8 g9 rest9 hm9q
  have hpd9 := processField_plain_inv _ g9 _ p9 (by decide) (by decide) hp9
  subst hpd9
  obtain ⟨g10, rest10, p10, hm10, hp10, hbr10⟩ := parseFields_cons_ok_inv _ _ _ _ _ _ h9
  rcases hbr10 with ⟨heq, -⟩ | ⟨-, rem10, hsep10, h10⟩
  · exact absurd heq (by decide)
  have hspan10 : rem9 = g10 ++ rest10 := fieldMatcher_span _ _ _ _ hm10
  obtain ⟨s10, hsr10, hseq10⟩ := matchSep_span rest10 rem10 hsep10
  have hm10q : matchQuoted rem9 = some (g10, rest10) := by
    rw [show fieldMatcher ("\"http_x_forwarded_for\"".toList) rem9
        = matchQuoted rem9 from by rw [fieldMatcher, if_pos (by decide)]] at hm10
    exact hm10
  obtain ⟨m10, hm10ne, hg10⟩ := matchQuoted_shape rem9 g10 rest10 hm10q
  have hpd10 := processField_plain_inv _ g10 _ p10 (by decide) (by decide) hp10
  subst hpd10
  obtain ⟨g11, rest11, p11, hm11, hp11, hbr11⟩ := parseFields_cons_ok_inv _ _ _ _ _ _ h10
  rcases hbr11 with ⟨heq, -⟩ | ⟨-, rem11, hsep11, h11⟩
  · exact absurd heq (by decide)
  have hspan11 : rem10 = g11 ++ rest11 := fieldMatcher_span _ _ _ _ hm11
  obtain ⟨s11, hsr11, hseq11⟩ := matchSep_span rest11 rem11 hsep11
  have hm11q : matchQuoted rem10 = some (g11, rest11) := by
    rw [show fieldMatcher ("\"http_X_REQUEST_ID\"".toList) rem10
        = matchQuoted rem10 from by rw [fieldMatcher, if_pos (by decide)]] at hm11
    exact hm11
  obtain ⟨m11, hm11ne, hg11⟩ := matchQuoted_shape rem10 g11 rest11 hm11q
  have hpd11 := processField_plain_inv _ g11 _ p11 (by decide) (by decide) hp11
  subst hpd11
  obtain ⟨g12, rest12, p12, hm12, hp12, hbr12⟩ := parseFields_cons_ok_inv _ _ _ _ _ _ h11
  rcases hbr12 with ⟨heq, -⟩ | ⟨-, rem12, hsep12, h12⟩
  · exact absurd heq (by decide)
  have hspan12 : rem11 = g12 ++ rest12 := fieldMatcher_span _ _ _ _ hm12
  obtain ⟨s12, hsr12, hseq12⟩ := matchSep_span rest12 rem12 hsep12
  have hm12q : matchQuoted rem11 = some (g12, rest12) := by
    rw [show fieldMatcher ("\"http_X_RB_USER\"".toList) rem11
        = matchQuoted rem11 from by rw [fieldMatcher, if_pos (by decide)]] at hm12
    exact hm12
  obtain ⟨m12, hm12ne, hg12⟩ := matchQuoted_shape rem11 g12 rest12 hm12q
  have hpd12 := processField_plain_inv _ g12 _ p12 (by decide) (by decide) hp12
  subst hpd12
  obtain ⟨g13, rest13, p13, hm13, hp13, hbr13⟩ := parseFields_cons_ok_inv _ _ _ _ _ _ h12
  rcases hbr13 with ⟨-, h13⟩ | ⟨hne, -⟩
  rotate_left
  · exact absurd (by decide) hne
  have hspan13 : rem12 = g13 ++ rest13 := fieldMatcher_span _ _ _ _ hm13
  rw [show pyStrip ("request_time".toList) = rtKey from by decide] at hp13
  obtain ⟨q, hq, hpd13⟩ := processField_rt_inv2 g13 _ p13 hp13
  subst hpd13
  have hr := ParseOutcome.ok.inj h13
  subst hr
  refine ⟨g1, g2, g3, g4, g5, g6, g7, g8, g9, g10, g11, g12, g13, u, q,
    s1, s2, s3, s4, s5, s6, s7, s8, s9, s10, s11, s12, rest13,
    ?_, ?_, ?_, hq, ⟨a, tail, hsp⟩, ⟨m5, hm5ne, hg5⟩, ⟨m4, hm4ne, hg4⟩, ?_⟩
  · rw [hspan1, hseq1, hspan2, hseq2, hspan3, hseq3, hspan4, hseq4, hspan5, hseq5,
      hspan6, hseq6, hspan7, hseq7, hspan8, hseq8, hspan9, hseq9, hspan10, hseq10,
      hspan11, hseq11, hspan12, hseq12, hspan13]
  · intro s hs
    fin_cases hs <;> assumption
  · rfl
  · intro gg hgg
    fin_cases hgg
    · exact ⟨m8, hm8ne, hg8⟩
    · exact ⟨m9, hm9ne, hg9⟩
    · exact ⟨m10, hm10ne, hg10⟩
    · exact ⟨m11, hm11ne, hg11⟩
    · exact ⟨m12, hm12ne, hg12⟩

/-- Minimal well-formed line for `LOG_FORMAT`, used by the witness. -/
def demoLine : List Char :=
  "a b c [d] \"e f\" g h \"i\" \"j\" \"k\" \"l\" \"m\" 1.5".toList

/-- Record produced by `parse_line` on `demoLine`. -/
def demoRec : PyDict :=
  [("remote_addr".toList, .str "a".toList),
   ("remote_user".toList, .str "b".toList),
   ("http_x_real_ip".toList, .str "c".toList),
   ("time_local".toList, .str "[d]".toList),
   ("url".toList, .str "f\"".toList),
   ("request".toList, .str "\"e f\"".toList),
   ("status".toList, .str "g".toList),
   ("body_bytes_sent".toList, .str "h".toList),
   ("http_referer".toList, .str "\"i\"".toList),
   ("http_user_agent".toList, .str "\"j\"".toList),
   ("http_x_forwarded_for".toList, .str "\"k\"".toList),
   ("http_X_REQUEST_ID".toList, .str "\"l\"".toList),
   ("http_X_RB_USER".toList, .str "\"m\"".toList),
   ("request_time".toList, .num (3/2))]


/-- Witness for the well-formed record theorem at a concrete line: the
components of `demoLine`'s decomposition and its record `demoRec`. -/
theorem parse_line_wellformed_record_witness :
    ∃ g1 g2 g3 g4 g5 g6 g7 g8 g9 g10 g11 g12 g13 u : List Char, ∃ q : ℚ,
    ∃ s1 s2 s3 s4 s5 s6 s7 s8 s9 s10 s11 s12 post : List Char,
      demoLine = g1 ++ (s1 ++ (g2 ++ (s2 ++ (g3 ++ (s3 ++ (g4 ++ (s4 ++ (g5 ++ (s5 ++
        (g6 ++ (s6 ++ (g7 ++ (s7 ++ (g8 ++ (s8 ++ (g9 ++ (s9 ++ (g10 ++ (s10 ++
        (g11 ++ (s11 ++ (g12 ++ (s12 ++ (g13 ++ post)))))))))))))))))))))))) ∧
      (∀ s ∈ [s1, s2, s3, s4, s5, s6, s7, s8, s9, s10, s11, s12], isSepRun s) ∧
      demoRec = [("remote_addr".toList, .str g1), ("remote_user".toList, .str g2),
           ("http_x_real_ip".toList, .str g3), ("time_local".toList, .str g4),
           (urlKey, .str u), (rqKey, .str g5), ("status".toList, .str g6),
           ("body_bytes_sent".toList, .str g7), ("http_referer".toList, .str g8),
           ("http_user_agent".toList, .str g9),
           ("http_x_forwarded_for".toList, .str g10),
           ("http_X_REQUEST_ID".toList, .str g11),
           ("http_X_RB_USER".toList, .str g12), (rtKey, .num q)] ∧
      pyFloat? g13 = some q ∧
      (∃ a tail, pySplitWs g5 = a :: u :: tail) ∧
      (∃ m, m ≠ [] ∧ g5 = '"' :: (m ++ ['"'])) ∧
      (∃ m, m ≠ [] ∧ g4 = '[' :: (m ++ [']'])) ∧
      (∀ g ∈ [g8, g9, g10, g11, g12], ∃ m, m ≠ [] ∧ g = '"' :: (m ++ ['"'])) :=
  parse_line_wellformed_record demoLine demoRec (by with_unfolding_all rfl)
